import Mathlib

/-!
Verification of the arc-standard dependency-parsing transition system of
`q1_parse.py`: the parse state (`PartialParse`), the transition engine
(`parse_step`), the dependant queries (`get_nleftmost` / `get_nrightmost`),
the oracle (`get_oracle`), the batched driver (`minibatch_parse`) and the
sentence extraction helper (`get_sentence`).

The repository ships `q1_parse.py` as a skeleton: the bodies of `complete`,
`parse_step`, `get_nleftmost`, `get_nrightmost`, the decision part of
`get_oracle` and `minibatch_parse` are elided (`*** ENTER YOUR CODE BELOW ***`
markers), with only their docstrings, the class constructor, `parse`, and the
helper functions present.  Definitions for the elided bodies are therefore
modelled from the specification and from the docstrings that remain in the
source; each such definition says so in its doc comment.  `__init__`,
`parse`, `get_sentence` and the graph helpers are translated from the source
directly.

Conventions of the embedding:
* A sentence token is an `Option String × String` pair (word, tag); the root
  pseudo-token is `(none, "TOP")`.
* The stack is a `List Nat` whose HEAD is the TOP of the stack, i.e. the list
  is reversed relative to the Python list (Python keeps the top at `stack[-1]`
  and pops from the end).
* An arc is `(idx_head, idx_dep, deprel)` with the dependency label kept as
  the `Option String` that was passed to `parse_step` (Python stores the
  `deprel` argument, which may be `None`, unchanged).
* Python's `ValueError` is modelled by `Option`: a failing operation returns
  `none` and (being pure) trivially leaves the state unmodified, which is the
  documented behaviour of the Python code.
-/

/-- An arc `(idx_head, idx_dep, deprel)`. -/
abbrev Arc : Type := Nat × Nat × Option String

/-- The parse state of `q1_parse.PartialParse`: quadruple
`(sentence, stack, next, arcs)`, translated from the class attributes set up
in `PartialParse.__init__`.  The stack list keeps the top element first
(Python keeps it last). -/
structure PartialParse where
  sentence : List (Option String × String)
  stack : List Nat
  next : Nat
  arcs : List Arc
deriving DecidableEq, Repr

/-- Identifier of the left-arc transition (`PartialParse.left_arc_id = 0`). -/
def left_arc_id : Nat := 0

/-- Identifier of the right-arc transition (`PartialParse.right_arc_id = 1`). -/
def right_arc_id : Nat := 1

/-- Identifier of the shift transition (`PartialParse.shift_id = 2`). -/
def shift_id : Nat := 2

/-- The POS-tag reserved for the root (`PartialParse.root_tag = "TOP"`). -/
def root_tag : String := "TOP"

/-- Translated from `PartialParse.__init__`: the sentence is the input with
`(None, root_tag)` prepended, the stack holds only the root index `0`, the
buffer cursor `next` is `1` and `arcs` is empty. -/
def initPP (sentence : List (Option String × String)) : PartialParse :=
  { sentence := (none, root_tag) :: sentence
    stack := [0]
    next := 1
    arcs := [] }

/-- Modelled from the spec: the body of `PartialParse.complete` is elided in
the source.  Spec 4.1: "`complete` is true iff `len(stack) == 1` and
`next == len(sentence)`". -/
def complete (pp : PartialParse) : Bool :=
  pp.stack.length == 1 && pp.next == pp.sentence.length

/-- Modelled from the spec: the body of `PartialParse.parse_step` is elided in
the source.  Spec 4.2: SHIFT requires a non-empty buffer and pushes
`sentence[next]` (i.e. the index `next`) incrementing `next`; LEFT-ARC(label)
requires at least two stack elements and that the second-from-top element is
not the root, records the arc `(top, second, label)` and removes the second
element; RIGHT-ARC(label) requires at least two stack elements, records
`(second, top, label)` and pops the top; any other transition id fails.
Failures (Python `ValueError`) are `none`. -/
def parse_step (pp : PartialParse) (transition_id : Nat) (deprel : Option String) :
    Option PartialParse :=
  if transition_id = left_arc_id then
    match pp.stack with
    | t :: s :: rest =>
      if s = 0 then none
      else some { pp with stack := t :: rest, arcs := pp.arcs ++ [(t, s, deprel)] }
    | _ => none
  else if transition_id = right_arc_id then
    match pp.stack with
    | t :: s :: rest =>
      some { pp with stack := s :: rest, arcs := pp.arcs ++ [(s, t, deprel)] }
    | _ => none
  else if transition_id = shift_id then
    if pp.next < pp.sentence.length then
      some { pp with stack := pp.next :: pp.stack, next := pp.next + 1 }
    else none
  else none

/-- Folding `parse_step` over a list of `(transition_id, deprel)` pairs; a
failure anywhere aborts (Python's `ValueError` propagates out of
`PartialParse.parse`). -/
def parseSteps : PartialParse → List (Nat × Option String) → Option PartialParse
  | pp, [] => some pp
  | pp, (t, d) :: rest =>
    match parse_step pp t d with
    | none => none
    | some pp2 => parseSteps pp2 rest

/-- Translated from `PartialParse.parse`: apply every `(transition_id, deprel)`
pair in order via `parse_step` and return the resulting arcs. -/
def parse (pp : PartialParse) (td_pairs : List (Nat × Option String)) :
    Option (List Arc) :=
  (parseSteps pp td_pairs).map PartialParse.arcs

/-- Sort a list of naturals into ascending order. -/
def sortAsc (l : List Nat) : List Nat :=
  l.insertionSort (fun a b => a ≤ b)

/-- Sort a list of naturals into descending order. -/
def sortDesc (l : List Nat) : List Nat :=
  l.insertionSort (fun a b => b ≤ a)

/-- Modelled from the spec and the source docstring: the body of
`PartialParse.get_nleftmost` is elided in the source.  Its docstring: return
the `n` leftmost direct dependants of the word at `sentence_idx` ("leftmost
means closest to the beginning of the sentence"), all of them when `n` is
`None`, "in order with the leftmost @ 0, immediately right of leftmost @ 1,
etc.".  So the dependants recorded in `arcs` with head `sentence_idx` and
index smaller than `sentence_idx` are sorted ascending and the first `n` are
returned.  (The spec's §4.3 instead orders nearest-to-idx first; the source
docstring is authoritative.) -/
def get_nleftmost (pp : PartialParse) (sentence_idx : Nat) (n : Option Nat) :
    List Nat :=
  let deps := (pp.arcs.filter
      (fun a => a.1 == sentence_idx && decide (a.2.1 < sentence_idx))).map
      (fun a => a.2.1)
  match n with
  | none => sortAsc deps
  | some k => (sortAsc deps).take k

/-- Modelled from the spec and the source docstring: the body of
`PartialParse.get_nrightmost` is elided in the source.  Its docstring: return
the `n` rightmost direct dependants ("rightmost means closest to the end of
the sentence"), all when `n` is `None`, "in order with the rightmost @ 0,
immediately left of rightmost @ 1, etc.": dependants with head `sentence_idx`
and index greater than `sentence_idx`, sorted descending, first `n`. -/
def get_nrightmost (pp : PartialParse) (sentence_idx : Nat) (n : Option Nat) :
    List Nat :=
  let deps := (pp.arcs.filter
      (fun a => a.1 == sentence_idx && decide (sentence_idx < a.2.1))).map
      (fun a => a.2.1)
  match n with
  | none => sortDesc deps
  | some k => (sortDesc deps).take k

/-- The gold dependency tree as consumed by the oracle, i.e. the interface of
the source helper functions: `head i` is `get_head(i, graph)`
(`None` for the root in an `nltk` `DependencyGraph`), `deprel i` is
`get_dep_rel(i, graph)`, and `deps i` is `get_deps(i, graph)`. -/
structure GoldTree where
  head : Nat → Option Nat
  deprel : Nat → String
  deps : Nat → List Nat

/-- Whether sentence index `d` already appears as a dependent in the arcs. -/
def attachedB (pp : PartialParse) (d : Nat) : Bool :=
  pp.arcs.any (fun a => a.2.1 == d)

/-- Whether every gold dependant of `x` already appears as a dependent in the
state's arcs. -/
def depsAttached (pp : PartialParse) (gt : GoldTree) (x : Nat) : Bool :=
  (gt.deps x).all (attachedB pp)

/-- Modelled from the spec: the decision part of `PartialParse.get_oracle` is
elided in the source (only the completion guard that raises `ValueError` is
present).  Spec 4.4: on an incomplete state, with `top`/`second` the two top
stack elements, choose LEFT-ARC with the gold label of `second` when the gold
head of `second` is `top` and all gold dependants of `second` are already
attached; otherwise RIGHT-ARC with the gold label of `top` under the
symmetric condition; otherwise SHIFT (also when the stack has fewer than two
elements).  On a complete state `ValueError` is raised (`none`). -/
def get_oracle (pp : PartialParse) (gt : GoldTree) : Option (Nat × Option String) :=
  if complete pp then none
  else
    match pp.stack with
    | t :: s :: _ =>
      if gt.head s == some t && depsAttached pp gt s then
        some (left_arc_id, some (gt.deprel s))
      else if gt.head t == some s && depsAttached pp gt t then
        some (right_arc_id, some (gt.deprel t))
      else some (shift_id, none)
    | _ => some (shift_id, none)

/-- One oracle-driven step: ask the oracle for a transition and apply it.
`none` when the state is complete or the transition is illegal. -/
def oracleStep (gt : GoldTree) (pp : PartialParse) : Option PartialParse :=
  match get_oracle pp gt with
  | none => none
  | some (t, d) => parse_step pp t d

/-- The loop of `data.py` (`while not pp.complete: pp.parse_step(*pp.get_oracle(graph))`)
with explicit fuel: drive the state with oracle transitions until complete.
`none` when fuel runs out or a step fails. -/
def oracle_run (gt : GoldTree) : Nat → PartialParse → Option PartialParse
  | 0, pp => if complete pp then some pp else none
  | fuel + 1, pp =>
    if complete pp then some pp
    else
      match oracleStep gt pp with
      | none => none
      | some pp2 => oracle_run gt fuel pp2

/-- Termination measure of a parse state: every successful `parse_step`
decreases it by exactly one (SHIFT trades two units of remaining buffer for
one stack slot, an arc removes a stack slot). -/
def ppMeasure (pp : PartialParse) : Nat :=
  2 * (pp.sentence.length - pp.next) + pp.stack.length

/-- Drive a single state with a per-state predictor `f` until it is complete
or `f`'s proposal is illegal, returning the accumulated arcs; `fuel` bounds
the number of steps (`ppMeasure` fuel always suffices, see `singleRun`). -/
def singleRunF (f : PartialParse → Nat × Option String) :
    Nat → PartialParse → List Arc
  | 0, pp => pp.arcs
  | fuel + 1, pp =>
    if complete pp then pp.arcs
    else
      match parse_step pp (f pp).1 (f pp).2 with
      | none => pp.arcs
      | some pp2 => singleRunF f fuel pp2

/-- The arcs a single sentence ends with when driven alone by the per-state
predictor `f`: step until complete or until `f` proposes an illegal
transition (which freezes the state, keeping its partial arcs). -/
def singleRun (f : PartialParse → Nat × Option String) (pp : PartialParse) :
    List Arc :=
  singleRunF f (ppMeasure pp) pp

/-- One round of the batch driver over the active pool: each pool entry
`(i, pp)` is paired with its proposal; a complete state is retired (its arcs
stored at slot `i`), a state whose proposal fails is dropped permanently with
the arcs accumulated so far, a state that steps to completion is retired,
and any other state stays in the pool.  Entries beyond the proposal list are
dropped (the predictor contract promises equal lengths). -/
def stepPool : List (Nat × PartialParse) → List (Nat × Option String) →
    List (Option (List Arc)) →
    List (Nat × PartialParse) × List (Option (List Arc))
  | [], _, results => ([], results)
  | _ :: _, [], results => ([], results)
  | (i, pp) :: pool, (t, d) :: preds, results =>
    if complete pp then stepPool pool preds (results.set i (some pp.arcs))
    else
      match parse_step pp t d with
      | none => stepPool pool preds (results.set i (some pp.arcs))
      | some pp2 =>
        if complete pp2 then stepPool pool preds (results.set i (some pp2.arcs))
        else
          let out := stepPool pool preds results
          ((i, pp2) :: out.1, out.2)

/-- Total measure of a pool/queue of indexed states: bounds the number of
driver rounds still possible. -/
def totalM (l : List (Nat × PartialParse)) : Nat :=
  (l.map (fun e => ppMeasure e.2 + 1)).sum

/-- Modelled from the spec: the body of `minibatch_parse` is elided in the
source.  Spec 4.5: keep a pool of at most `batch_size` active states, refill
it from the queue as slots free up, each round ask the model for one
`(transition, deprel)` proposal per active state and apply them, retiring
completed states and permanently dropping states whose proposal is illegal
(their result is the arcs accumulated so far).  The loop is given explicit
fuel; `minibatch_parse` passes fuel that provably suffices whenever
`batch_size` is positive (with `batch_size = 0` the Python loop would not
terminate; this model then returns the results collected so far). -/
def mbLoop (model : List PartialParse → List (Nat × Option String))
    (batch_size : Nat) :
    Nat → List (Nat × PartialParse) → List (Nat × PartialParse) →
    List (Option (List Arc)) → List (Option (List Arc))
  | 0, _, _, results => results
  | fuel + 1, queue, pool, results =>
    if pool.isEmpty && queue.isEmpty then results
    else
      let pool2 := pool ++ queue.take (batch_size - pool.length)
      let queue2 := queue.drop (batch_size - pool.length)
      if pool2.isEmpty then results
      else
        let preds := model (pool2.map (fun e => e.2))
        let out := stepPool pool2 preds results
        mbLoop model batch_size fuel queue2 out.1 out.2

/-- Modelled from the spec: parse a list of sentences in minibatches with a
model, returning one arcs list per sentence in input order; sentences whose
state got stuck keep the arcs accumulated before the failure. -/
def minibatch_parse (sentences : List (List (Option String × String)))
    (model : List PartialParse → List (Nat × Option String))
    (batch_size : Nat) : List (List Arc) :=
  let queue := (sentences.map initPP).enum
  (mbLoop model batch_size (totalM queue + 1) queue []
      (List.replicate sentences.length none)).map (fun o => o.getD [])

/-- A node of an `nltk` `DependencyGraph` as read by `get_sentence`:
its address, word (`None` exactly for the root) and coarse tag. -/
structure DepNode where
  address : Nat
  word : Option String
  ctag : String
deriving DecidableEq, Repr

/-- A dependency graph for `get_sentence`: the value collection of
`graph.nodes` (a dict keyed by address, so addresses are distinct). -/
structure DepGraph where
  nodes : List DepNode
deriving DecidableEq, Repr

/-- Sort of `(address, word, ctag)` triples by address.  The Python code
sorts the tuples lexicographically, which coincides with sorting by address
because the addresses (dict keys) are distinct. -/
def sortByAddr (l : List (Nat × Option String × String)) :
    List (Nat × Option String × String) :=
  l.insertionSort (fun a b => a.1 ≤ b.1)

/-- Translated from `get_sentence`: collect `(address, word, ctag)` for every
node (when `include_root`) or every node whose word is not `None`, sort, and
drop the addresses. -/
def get_sentence (graph : DepGraph) (include_root : Bool) :
    List (Option String × String) :=
  let swa := (graph.nodes.filter
      (fun nd => include_root || nd.word.isSome)).map
      (fun nd => (nd.address, nd.word, nd.ctag))
  (sortByAddr swa).map (fun t => t.2)

/-- Ancestor-or-self relation of a gold tree: `IsAnc gt x y` holds when `y`
is reached from `x` by following gold heads zero or more times. -/
inductive IsAnc (gt : GoldTree) : Nat → Nat → Prop
  | refl (x : Nat) : IsAnc gt x x
  | step {x h y : Nat} : gt.head x = some h → IsAnc gt h y → IsAnc gt x y

/-- Projectivity as convexity of subtrees: whenever `a` and `c` both lie in
the subtree of `x`, every position between them does too.  For dependency
trees this is the standard equivalent of "no crossing arcs drawn above the
linear token order". -/
def Projective (gt : GoldTree) : Prop :=
  ∀ x a b c : Nat, a ≤ b → b ≤ c → IsAnc gt a x → IsAnc gt c x → IsAnc gt b x

/-- Well-formedness of a gold tree over `n` non-root tokens, as provided by
an `nltk` `DependencyGraph`: the root has no head; every token `1..n` has a
head among `0..n`; the dependant lists are exactly the inverse of the head
assignment; and the head relation is acyclic (graded by some rank function). -/
structure GoldWF (gt : GoldTree) (n : Nat) : Prop where
  head0 : gt.head 0 = none
  headSome : ∀ d, 1 ≤ d → d ≤ n → ∃ h, gt.head d = some h ∧ h ≤ n
  depsMem : ∀ i d, d ∈ gt.deps i → 1 ≤ d ∧ d ≤ n ∧ gt.head d = some i
  memDeps : ∀ d h, 1 ≤ d → d ≤ n → gt.head d = some h → d ∈ gt.deps h
  acyclic : ∃ f : Nat → Nat, ∀ d h, d ≤ n → gt.head d = some h → f h < f d

/-- The dependent indices of the recorded arcs, in order. -/
def arcDeps (pp : PartialParse) : List Nat :=
  pp.arcs.map (fun a => a.2.1)

/-- Structural invariant of states reachable from an initial state by legal
transitions: the buffer cursor stays within the sentence, the stack together
with the recorded dependents enumerates `0..next-1` exactly once each, the
stack strictly decreases from top to bottom, and the root stays on it. -/
structure StInv (pp : PartialParse) : Prop where
  nextLe : pp.next ≤ pp.sentence.length
  perm : (pp.stack ++ arcDeps pp).Perm (List.range pp.next)
  sorted : pp.stack.Chain' (fun a b => b < a)
  rootMem : 0 ∈ pp.stack

/-- Number of SHIFT transitions in a transition/deprel list. -/
def countShift (tds : List (Nat × Option String)) : Nat :=
  tds.countP (fun td => td.1 == shift_id)

/-- Number of arc (LEFT-ARC or RIGHT-ARC) transitions in a
transition/deprel list. -/
def countArc (tds : List (Nat × Option String)) : Nat :=
  tds.countP (fun td => td.1 == left_arc_id || td.1 == right_arc_id)

/-- Invariant of states reached by oracle-driven parsing towards a gold
tree: on top of the structural invariant, every recorded arc agrees with the
gold head and label of its dependent; dependants of attached nodes are
attached; and for any two stack elements adjacent in stack order whose upper
member is not the current top, neither of the two reduction conditions
holds (the oracle would have reduced instead of shifting). -/
structure OInv (gt : GoldTree) (pp : PartialParse) : Prop where
  base : StInv pp
  sound : ∀ a ∈ pp.arcs, gt.head a.2.1 = some a.1 ∧ a.2.2 = some (gt.deprel a.2.1)
  closure : ∀ a ∈ pp.arcs, ∀ e ∈ gt.deps a.2.1, attachedB pp e = true
  covered : ∀ u v, u ∈ pp.stack → v ∈ pp.stack → u < v →
    (∀ w ∈ pp.stack, ¬(u < w ∧ w < v)) → pp.stack.head? ≠ some v →
    ¬(gt.head v = some u ∧ depsAttached pp gt v = true) ∧
    ¬(gt.head u = some v ∧ depsAttached pp gt u = true)

/-- The example sentence `[("book","VB"),("a","DT"),("flight","NN")]`. -/
def sEx : List (Option String × String) :=
  [(some "book", "VB"), (some "a", "DT"), (some "flight", "NN")]

/-- The example gold tree: head(1)=0 labelled "root", head(2)=3 labelled
"det", head(3)=1 labelled "obj". -/
def gtEx : GoldTree :=
  { head := fun i =>
      if i = 1 then some 0 else if i = 2 then some 3 else
      if i = 3 then some 1 else none
    deprel := fun i =>
      if i = 1 then "root" else if i = 2 then "det" else
      if i = 3 then "obj" else ""
    deps := fun i =>
      if i = 0 then [1] else if i = 1 then [3] else
      if i = 3 then [2] else [] }

/-- A concrete state with arcs `(head 3, dep 1)` and `(head 3, dep 2)`,
used to settle the dependant-query ordering. -/
def ppDeps : PartialParse :=
  { sentence := [(none, "TOP"), (some "x", "N"), (some "y", "N"), (some "z", "N")]
    stack := [3, 0]
    next := 4
    arcs := [(3, 1, some "a"), (3, 2, some "b")] }

/-- A concrete pointwise predictor for the batch-driver scenario: it shifts
while the buffer is nonempty and then reduces with right-arcs, except that on
a sentence containing the word "bad" it proposes an illegal left-arc (making
the root a dependent) once the stack is down to two elements. -/
def predC7 (pp : PartialParse) : Nat × Option String :=
  if pp.next < pp.sentence.length then (shift_id, none)
  else if pp.sentence.any (fun tk => tk.1 == some "bad") && pp.stack.length == 2 then
    (left_arc_id, some "l")
  else (right_arc_id, some "r")

/-- Concrete sentences for the batch-driver scenario; the middle one makes
`predC7` propose an illegal transition mid-parse. -/
def sentsC7 : List (List (Option String × String)) :=
  [[(some "g1", "A")],
   [(some "bad", "A"), (some "g2", "A")],
   [(some "g3", "A"), (some "g4", "A")]]

/-- A concrete dependency graph with shuffled node order for `get_sentence`. -/
def gEx : DepGraph :=
  { nodes := [{ address := 0, word := none, ctag := "TOP" },
              { address := 2, word := some "flight", ctag := "NN" },
              { address := 1, word := some "book", ctag := "VB" }] }

/-! ### Basic facts about the transition engine -/

theorem parse_step_left_cons (pp : PartialParse) (d : Option String)
    (t s : Nat) (rest : List Nat) (h : pp.stack = t :: s :: rest) :
    parse_step pp left_arc_id d =
      if s = 0 then none
      else some { pp with stack := t :: rest, arcs := pp.arcs ++ [(t, s, d)] } := by
  simp [parse_step, h]

theorem parse_step_right_cons (pp : PartialParse) (d : Option String)
    (t s : Nat) (rest : List Nat) (h : pp.stack = t :: s :: rest) :
    parse_step pp right_arc_id d =
      some { pp with stack := s :: rest, arcs := pp.arcs ++ [(s, t, d)] } := by
  simp [parse_step, right_arc_id, left_arc_id, h]

theorem parse_step_shift (pp : PartialParse) (d : Option String) :
    parse_step pp shift_id d =
      if pp.next < pp.sentence.length then
        some { pp with stack := pp.next :: pp.stack, next := pp.next + 1 }
      else none := by
  simp [parse_step, shift_id, left_arc_id, right_arc_id]

theorem parse_step_arc_short (pp : PartialParse) (d : Option String)
    (h : pp.stack.length < 2) (tid : Nat)
    (htid : tid = left_arc_id ∨ tid = right_arc_id) :
    parse_step pp tid d = none := by
  rcases hst : pp.stack with _ | ⟨a, tl⟩
  · rcases htid with h1 | h1 <;> subst h1 <;>
      simp [parse_step, left_arc_id, right_arc_id, hst]
  · rcases hst2 : tl with _ | ⟨b, tl2⟩
    · rcases htid with h1 | h1 <;> subst h1 <;>
        simp [parse_step, left_arc_id, right_arc_id, hst, hst2]
    · rw [hst, hst2] at h; simp at h; omega

/-! ### C5: the completion predicate -/

/-- C5: for every parse state, `complete` returns true iff the stack has
exactly one element and `next` equals the length of the root-prefixed
sentence.  (The model is a pure function, so evaluating it cannot modify the
state.) -/
theorem c5_complete_iff (pp : PartialParse) :
    complete pp = true ↔
      pp.stack.length = 1 ∧ pp.next = pp.sentence.length := by
  simp [complete]

/-! ### C9: the constructor and the empty sentence -/

/-- C9: the constructor prepends the root token `(None, "TOP")` to the input
sentence (so input word `i` sits at sentence index `i + 1`), starts with
stack `[0]`, `next = 1` and no arcs; and for the empty input sentence the
initial state is already complete with no arcs. -/
theorem c9_init (s : List (Option String × String)) :
    (initPP s).sentence = (none, "TOP") :: s ∧
    (∀ i : Nat, (initPP s).sentence.get? (i + 1) = s.get? i) ∧
    (initPP s).stack = [0] ∧
    (initPP s).next = 1 ∧
    (initPP s).arcs = [] ∧
    complete (initPP []) = true ∧
    (initPP []).arcs = [] := by
  refine ⟨rfl, fun i => ?_, rfl, rfl, rfl, by decide, rfl⟩
  simp [initPP]

/-! ### C3: the left-arc transition -/

/-- C3: on a stack with at least two elements whose second-from-top element
is not the root, LEFT-ARC with label `L` appends the arc
`(top, second, L)`, removes the second element from the stack keeping the
top, and leaves `sentence` and `next` unchanged; with fewer than two stack
elements, or when the second element is the root index `0`, LEFT-ARC
fails. -/
theorem c3_left_arc :
    (∀ (pp : PartialParse) (L : Option String) (t s : Nat) (rest : List Nat),
       pp.stack = t :: s :: rest → s ≠ 0 →
       parse_step pp left_arc_id L =
         some { pp with stack := t :: rest, arcs := pp.arcs ++ [(t, s, L)] }) ∧
    (∀ (pp : PartialParse) (L : Option String),
       pp.stack.length < 2 → parse_step pp left_arc_id L = none) ∧
    (∀ (pp : PartialParse) (L : Option String) (t : Nat) (rest : List Nat),
       pp.stack = t :: 0 :: rest → parse_step pp left_arc_id L = none) := by
  refine ⟨fun pp L t s rest h hs => ?_, fun pp L h => ?_, fun pp L t rest h => ?_⟩
  · rw [parse_step_left_cons pp L t s rest h, if_neg hs]
  · exact parse_step_arc_short pp L h left_arc_id (Or.inl rfl)
  · rw [parse_step_left_cons pp L t 0 rest h, if_pos rfl]

/-- Witness for C3 at concrete states. -/
theorem c3_left_arc_witness :
    parse_step { sentence := [(none, "TOP"), (some "w", "N")],
                 stack := [1, 0], next := 2, arcs := [] } left_arc_id (some "l")
      = none ∧
    parse_step { sentence := [(none, "TOP"), (some "w", "N"), (some "v", "N")],
                 stack := [2, 1, 0], next := 3, arcs := [] } left_arc_id (some "l")
      = some { sentence := [(none, "TOP"), (some "w", "N"), (some "v", "N")],
               stack := [2, 0], next := 3, arcs := [(2, 1, some "l")] } ∧
    parse_step { sentence := [(none, "TOP")], stack := [0], next := 1,
                 arcs := [] } left_arc_id (some "l") = none := by
  refine ⟨?_, ?_, ?_⟩
  · exact c3_left_arc.2.2 _ (some "l") 1 [] rfl
  · exact c3_left_arc.1 _ (some "l") 2 1 [0] rfl (by decide)
  · exact c3_left_arc.2.1 _ (some "l") (by decide)

/-! ### C4: failure conditions of the transition engine -/

/-- C4: for a state whose buffer cursor is in range, `parse_step` fails
exactly when the transition's precondition fails: SHIFT with an empty buffer
(`next = len(sentence)`), an arc transition with fewer than two stack
elements, LEFT-ARC whose second-from-top element is the root, or an
unrecognized transition id.  In the model failure is `none` and the state
value is untouched (Python raises `ValueError` before mutating anything). -/
theorem c4_parse_step_errors (pp : PartialParse) (t : Nat) (d : Option String)
    (hnext : pp.next ≤ pp.sentence.length) :
    parse_step pp t d = none ↔
      ((t = shift_id ∧ pp.next = pp.sentence.length) ∨
       ((t = left_arc_id ∨ t = right_arc_id) ∧ pp.stack.length < 2) ∨
       (t = left_arc_id ∧ ∃ tp rest, pp.stack = tp :: 0 :: rest) ∨
       (t ≠ left_arc_id ∧ t ≠ right_arc_id ∧ t ≠ shift_id)) := by
  rcases hst : pp.stack with _ | ⟨a, _ | ⟨b, rest⟩⟩
  · by_cases h0 : t = left_arc_id
    · subst h0; simp [parse_step, hst, left_arc_id, right_arc_id, shift_id]
    · by_cases h1 : t = right_arc_id
      · subst h1; simp [parse_step, hst, left_arc_id, right_arc_id, shift_id]
      · by_cases h2 : t = shift_id
        · subst h2
          simp only [parse_step, hst, left_arc_id, right_arc_id, shift_id] at *
          simp only [if_neg (by omega : ¬ (2 : Nat) = 0),
            if_neg (by omega : ¬ (2 : Nat) = 1), if_pos rfl]
          constructor
          · intro h; left; constructor; · trivial
            · by_contra hc
              have : pp.next < pp.sentence.length := by omega
              simp [this] at h
          · intro h
            rcases h with ⟨_, h⟩ | ⟨⟨h, _⟩, _⟩ | ⟨h, _⟩ | ⟨_, _, h⟩ <;>
              first
              | (simp [show ¬ pp.next < pp.sentence.length by omega])
              | omega
        · simp only [parse_step, if_neg h0, if_neg h1, if_neg h2]
          simp [h0, h1, h2]
  · by_cases h0 : t = left_arc_id
    · subst h0; simp [parse_step, hst, left_arc_id, right_arc_id, shift_id]
    · by_cases h1 : t = right_arc_id
      · subst h1; simp [parse_step, hst, left_arc_id, right_arc_id, shift_id]
      · by_cases h2 : t = shift_id
        · subst h2
          simp only [parse_step, hst, left_arc_id, right_arc_id, shift_id] at *
          simp only [if_neg (by omega : ¬ (2 : Nat) = 0),
            if_neg (by omega : ¬ (2 : Nat) = 1), if_pos rfl]
          constructor
          · intro h; left; constructor; · trivial
            · by_contra hc
              have : pp.next < pp.sentence.length := by omega
              simp [this] at h
          · intro h
            rcases h with ⟨_, h⟩ | ⟨⟨h, _⟩, _⟩ | ⟨h, _⟩ | ⟨_, _, h⟩ <;>
              first
              | (simp [show ¬ pp.next < pp.sentence.length by omega])
              | (simp [left_arc_id, right_arc_id, shift_id] at *; omega)
        · simp only [parse_step, if_neg h0, if_neg h1, if_neg h2]
          simp [h0, h1, h2]
  · by_cases h0 : t = left_arc_id
    · subst h0
      rw [parse_step_left_cons pp d a b rest hst]
      by_cases hb : b = 0
      · subst hb
        simp [hst, left_arc_id, right_arc_id, shift_id]
      · simp [hst, hb, left_arc_id, right_arc_id, shift_id]
    · by_cases h1 : t = right_arc_id
      · subst h1
        rw [parse_step_right_cons pp d a b rest hst]
        simp [hst, left_arc_id, right_arc_id, shift_id]
      · by_cases h2 : t = shift_id
        · subst h2
          rw [parse_step_shift pp d]
          simp only [hst, left_arc_id, right_arc_id, shift_id]
          constructor
          · intro h; left; constructor; · trivial
            · by_contra hc
              have : pp.next < pp.sentence.length := by omega
              simp [this] at h
          · intro h
            rcases h with ⟨_, h⟩ | ⟨⟨h, _⟩ | ⟨h, _⟩, _⟩ | ⟨h, _⟩ | ⟨_, _, h⟩ <;>
              first
              | (simp [show ¬ pp.next < pp.sentence.length by omega])
              | omega
              | simp at h
        · simp only [parse_step, if_neg h0, if_neg h1, if_neg h2]
          simp [h0, h1, h2]

/-- Witness for C4: a failing SHIFT on an exhausted buffer. -/
theorem c4_parse_step_errors_witness :
    parse_step { sentence := [(none, "TOP"), (some "w", "N")],
                 stack := [1, 0], next := 2, arcs := [] } shift_id none
      = none := by
  have h := c4_parse_step_errors
    { sentence := [(none, "TOP"), (some "w", "N")],
      stack := [1, 0], next := 2, arcs := [] } shift_id none (by decide)
  exact h.mpr (Or.inl ⟨rfl, by decide⟩)

/-! ### C1: the oracle decision -/

theorem get_oracle_cons (pp : PartialParse) (gt : GoldTree)
    (t s : Nat) (rest : List Nat) (h : pp.stack = t :: s :: rest)
    (hnc : complete pp = false) :
    get_oracle pp gt =
      if gt.head s == some t && depsAttached pp gt s then
        some (left_arc_id, some (gt.deprel s))
      else if gt.head t == some s && depsAttached pp gt t then
        some (right_arc_id, some (gt.deprel t))
      else some (shift_id, none) := by
  simp only [get_oracle, hnc]
  rw [h]
  rfl

/-- C1: on an incomplete state whose stack holds at least two elements, the
oracle returns LEFT-ARC with the gold label of the second-from-top element
exactly when the gold head of that element is the top element and all its
gold dependants are already attached; it returns RIGHT-ARC with the gold
label of the top element exactly when the left-arc condition fails and the
symmetric condition on the top element holds; it returns SHIFT exactly when
both fail (the left-arc condition is tested first, so LEFT-ARC wins every
tie with SHIFT); and with fewer than two stack elements it returns SHIFT. -/
theorem c1_oracle_decision (pp : PartialParse) (gt : GoldTree)
    (hnc : complete pp = false) :
    (∀ t s rest, pp.stack = t :: s :: rest →
      (get_oracle pp gt = some (left_arc_id, some (gt.deprel s)) ↔
        (gt.head s = some t ∧ depsAttached pp gt s = true)) ∧
      (get_oracle pp gt = some (right_arc_id, some (gt.deprel t)) ↔
        (¬(gt.head s = some t ∧ depsAttached pp gt s = true) ∧
         gt.head t = some s ∧ depsAttached pp gt t = true)) ∧
      (get_oracle pp gt = some (shift_id, none) ↔
        (¬(gt.head s = some t ∧ depsAttached pp gt s = true) ∧
         ¬(gt.head t = some s ∧ depsAttached pp gt t = true)))) ∧
    (pp.stack.length < 2 → get_oracle pp gt = some (shift_id, none)) := by
  constructor
  · intro t s rest h
    rw [get_oracle_cons pp gt t s rest h hnc] at *
    by_cases hl : gt.head s = some t ∧ depsAttached pp gt s = true
    · have hb : (gt.head s == some t && depsAttached pp gt s) = true := by
        simp [hl.1, hl.2]
      rw [hb]
      simp only [if_true]
      refine ⟨by simp [hl], ?_, ?_⟩
      · simp [left_arc_id, right_arc_id, hl]
      · simp [left_arc_id, shift_id, hl]
    · have hb : (gt.head s == some t && depsAttached pp gt s) = false := by
        rcases Decidable.not_and_iff_or_not.mp hl with h1 | h1 <;> simp [h1]
      rw [hb]
      simp only [Bool.false_eq_true, if_false]
      by_cases hr : gt.head t = some s ∧ depsAttached pp gt t = true
      · have hb2 : (gt.head t == some s && depsAttached pp gt t) = true := by
          simp [hr.1, hr.2]
        rw [hb2]
        simp only [if_true]
        refine ⟨by simp [left_arc_id, right_arc_id, hl], by simp [hl, hr], ?_⟩
        simp [right_arc_id, shift_id, hl, hr]
      · have hb2 : (gt.head t == some s && depsAttached pp gt t) = false := by
          rcases Decidable.not_and_iff_or_not.mp hr with h1 | h1 <;> simp [h1]
        rw [hb2]
        simp only [Bool.false_eq_true, if_false]
        refine ⟨by simp [left_arc_id, shift_id, hl], ?_, by simp [hl, hr]⟩
        simp [right_arc_id, shift_id, hl, hr]
  · intro h
    rcases hst : pp.stack with _ | ⟨a, _ | ⟨b, r⟩⟩
    · simp [get_oracle, hnc, hst]
    · simp [get_oracle, hnc, hst]
    · rw [hst] at h; simp at h; omega

/-- Witness for C1: a concrete incomplete state where the left-arc condition
holds for the top two stack elements, and one with a single-element stack. -/
theorem c1_oracle_decision_witness :
    get_oracle { sentence := (none, root_tag) :: sEx, stack := [3, 2, 0],
                 next := 4, arcs := [] } gtEx
      = some (left_arc_id, some "det") ∧
    get_oracle { sentence := (none, root_tag) :: sEx, stack := [0],
                 next := 1, arcs := [] } gtEx
      = some (shift_id, none) := by
  constructor
  · exact (((c1_oracle_decision
      { sentence := (none, root_tag) :: sEx, stack := [3, 2, 0],
        next := 4, arcs := [] } gtEx (by decide)).1 3 2 [0] rfl).1).mpr
      ⟨by decide, by decide⟩
  · exact (c1_oracle_decision
      { sentence := (none, root_tag) :: sEx, stack := [0],
        next := 1, arcs := [] } gtEx (by decide)).2 (by decide)

/-! ### C6: the dependant queries -/

/-- C6 counterexample: in a state with arcs `(head 3, dep 1)` and
`(head 3, dep 2)`, `get_nleftmost 3 2` returns `[1, 2]` (leftmost first, as
the source docstring prescribes), not `[2, 1]` (nearest-to-idx first) as
claimed. -/
theorem c6_dependant_order_counterexample :
    get_nleftmost ppDeps 3 (some 2) = [1, 2] ∧
    get_nleftmost ppDeps 3 (some 2) ≠ [2, 1] := by
  constructor <;> decide

/-- C6 (amended): `get_nleftmost` (resp. `get_nrightmost`) returns the direct
dependants of `idx` recorded in the state's arcs that lie left (resp. right)
of `idx` — no dependants of dependants — ordered with the outermost one
first: ascending for `get_nleftmost` (leftmost @ 0), descending for
`get_nrightmost` (rightmost @ 0); passing `n` truncates the full list to its
first `n` entries (so all dependants are returned when fewer than `n` exist
or `n` is unspecified).  The model is a pure function, so the state is not
modified. -/
theorem c6_dependant_order_amended (pp : PartialParse) (idx : Nat) :
    List.Sorted (fun a b => a ≤ b) (get_nleftmost pp idx none) ∧
    (∀ x, x ∈ get_nleftmost pp idx none ↔
      (x < idx ∧ ∃ l, (idx, x, l) ∈ pp.arcs)) ∧
    (∀ k, get_nleftmost pp idx (some k) = (get_nleftmost pp idx none).take k) ∧
    List.Sorted (fun a b => b ≤ a) (get_nrightmost pp idx none) ∧
    (∀ x, x ∈ get_nrightmost pp idx none ↔
      (idx < x ∧ ∃ l, (idx, x, l) ∈ pp.arcs)) ∧
    (∀ k, get_nrightmost pp idx (some k) = (get_nrightmost pp idx none).take k) := by
  refine ⟨List.sorted_insertionSort _ _, fun x => ?_, fun k => rfl, ?_, fun x => ?_, fun k => rfl⟩
  · rw [show get_nleftmost pp idx none =
      sortAsc ((pp.arcs.filter
        (fun a => a.1 == idx && decide (a.2.1 < idx))).map (fun a => a.2.1)) from rfl]
    simp only [sortAsc]
    rw [(List.perm_insertionSort _ _).mem_iff]
    simp only [List.mem_map, List.mem_filter, Bool.and_eq_true, beq_iff_eq,
      decide_eq_true_eq]
    constructor
    · rintro ⟨⟨h1, d1, l1⟩, ⟨ha, h2, h3⟩, h4⟩
      simp only at h2 h3 h4
      subst h2; subst h4
      exact ⟨h3, l1, ha⟩
    · rintro ⟨hx, l, hl⟩
      exact ⟨(idx, x, l), ⟨hl, rfl, hx⟩, rfl⟩
  · haveI : IsTotal Nat (fun a b => b ≤ a) := ⟨fun a b => le_total b a⟩
    haveI : IsTrans Nat (fun a b => b ≤ a) := ⟨fun a b c h1 h2 => le_trans h2 h1⟩
    exact List.sorted_insertionSort _ _
  · rw [show get_nrightmost pp idx none =
      sortDesc ((pp.arcs.filter
        (fun a => a.1 == idx && decide (idx < a.2.1))).map (fun a => a.2.1)) from rfl]
    simp only [sortDesc]
    rw [(List.perm_insertionSort _ _).mem_iff]
    simp only [List.mem_map, List.mem_filter, Bool.and_eq_true, beq_iff_eq,
      decide_eq_true_eq]
    constructor
    · rintro ⟨⟨h1, d1, l1⟩, ⟨ha, h2, h3⟩, h4⟩
      simp only at h2 h3 h4
      subst h2; subst h4
      exact ⟨h3, l1, ha⟩
    · rintro ⟨hx, l, hl⟩
      exact ⟨(idx, x, l), ⟨hl, rfl, hx⟩, rfl⟩

/-! ### C8: structural invariants of derivations -/

theorem parse_step_some_cases (pp pp2 : PartialParse) (t : Nat) (d : Option String)
    (h : parse_step pp t d = some pp2) :
    (t = left_arc_id ∧ ∃ tp s rest, pp.stack = tp :: s :: rest ∧ s ≠ 0 ∧
       pp2 = { pp with stack := tp :: rest, arcs := pp.arcs ++ [(tp, s, d)] }) ∨
    (t = right_arc_id ∧ ∃ tp s rest, pp.stack = tp :: s :: rest ∧
       pp2 = { pp with stack := s :: rest, arcs := pp.arcs ++ [(s, tp, d)] }) ∨
    (t = shift_id ∧ pp.next < pp.sentence.length ∧
       pp2 = { pp with stack := pp.next :: pp.stack, next := pp.next + 1 }) := by
  by_cases h0 : t = left_arc_id
  · subst h0
    rcases hst : pp.stack with _ | ⟨a, _ | ⟨b, rest⟩⟩ <;>
      simp only [parse_step, if_pos rfl, hst] at h
    · exact absurd h (by simp)
    · exact absurd h (by simp)
    · by_cases hb : b = 0
      · subst hb; simp at h
      · rw [if_neg hb] at h
        exact Or.inl ⟨rfl, a, b, rest, rfl, hb, (Option.some_injective _ h).symm⟩
  · by_cases h1 : t = right_arc_id
    · subst h1
      rcases hst : pp.stack with _ | ⟨a, _ | ⟨b, rest⟩⟩ <;>
        simp only [parse_step, right_arc_id, left_arc_id, hst] at h <;>
        simp only [reduceIte] at h
      · exact absurd h (by simp)
      · exact absurd h (by simp)
      · exact Or.inr (Or.inl ⟨rfl, a, b, rest, rfl,
          (Option.some_injective _ h).symm⟩)
    · by_cases h2 : t = shift_id
      · subst h2
        simp only [parse_step, shift_id, left_arc_id, right_arc_id] at h
        simp only [reduceIte] at h
        by_cases hn : pp.next < pp.sentence.length
        · rw [if_pos hn] at h
          exact Or.inr (Or.inr ⟨rfl, hn, (Option.some_injective _ h).symm⟩)
        · rw [if_neg hn] at h; exact absurd h (by simp)
      · simp only [parse_step, if_neg h0, if_neg h1, if_neg h2] at h
        exact absurd h (by simp)

theorem chain'_gtrans {a b : Nat} {l : List Nat}
    (h : List.Chain' (fun x y => y < x) (a :: b :: l)) :
    List.Chain' (fun x y => y < x) (a :: l) := by
  rcases l with _ | ⟨c, l2⟩
  · simp
  · rcases List.chain'_cons.mp h with ⟨hab, h2⟩
    rcases List.chain'_cons.mp h2 with ⟨hbc, h3⟩
    exact List.chain'_cons.mpr ⟨lt_trans hbc hab, h3⟩

theorem stinv_step (pp pp2 : PartialParse) (t : Nat) (d : Option String)
    (h : parse_step pp t d = some pp2) (inv : StInv pp) : StInv pp2 := by
  have hsub : ∀ x ∈ pp.stack, x < pp.next := by
    intro x hx
    have : x ∈ List.range pp.next :=
      inv.perm.mem_iff.mp (List.mem_append_left _ hx)
    exact List.mem_range.mp this
  rcases parse_step_some_cases pp pp2 t d h with
    ⟨_, tp, s, rest, hst, hs0, hpp⟩ | ⟨_, tp, s, rest, hst, hpp⟩ | ⟨_, hn, hpp⟩
  · subst hpp
    refine ⟨inv.nextLe, ?_, ?_, ?_⟩
    · show ((tp :: rest) ++
        ((pp.arcs ++ [(tp, s, d)]).map (fun a => a.2.1))).Perm (List.range pp.next)
      rw [List.map_append]
      have h2 : (rest ++ ((pp.arcs.map (fun a => a.2.1)) ++ [s])).Perm
          (s :: (rest ++ pp.arcs.map (fun a => a.2.1))) := by
        rw [show rest ++ ((pp.arcs.map (fun a => a.2.1)) ++ [s]) =
          (rest ++ pp.arcs.map (fun a => a.2.1)) ++ [s] by rw [List.append_assoc]]
        exact List.perm_append_singleton _ _
      have h1 : ((tp :: rest) ++ ((pp.arcs.map (fun a => a.2.1)) ++ [s])).Perm
          ((tp :: s :: rest) ++ pp.arcs.map (fun a => a.2.1)) := h2.cons tp
      have hiv : ((tp :: s :: rest) ++ pp.arcs.map (fun a => a.2.1)).Perm
          (List.range pp.next) := by
        have := inv.perm
        rw [hst] at this
        exact this
      exact (List.Perm.trans h1 hiv : _)
    · show List.Chain' (fun x y => y < x) (tp :: rest)
      have := inv.sorted; rw [hst] at this; exact chain'_gtrans this
    · show 0 ∈ tp :: rest
      have := inv.rootMem; rw [hst] at this
      simp only [List.mem_cons] at this ⊢
      rcases this with h1 | h1 | h1
      · exact Or.inl h1
      · exact absurd h1.symm hs0
      · exact Or.inr h1
  · subst hpp
    have hsorted := inv.sorted; rw [hst] at hsorted
    have hts : s < tp := (List.chain'_cons.mp hsorted).1
    refine ⟨inv.nextLe, ?_, ?_, ?_⟩
    · show ((s :: rest) ++
        ((pp.arcs ++ [(s, tp, d)]).map (fun a => a.2.1))).Perm (List.range pp.next)
      rw [List.map_append]
      simp only [List.map_cons, List.map_nil]
      have h1 : (((s :: rest) ++ pp.arcs.map (fun a => a.2.1)) ++ [tp]).Perm
          (tp :: ((s :: rest) ++ pp.arcs.map (fun a => a.2.1))) :=
        List.perm_append_singleton _ _
      have hiv : ((tp :: s :: rest) ++ pp.arcs.map (fun a => a.2.1)).Perm
          (List.range pp.next) := by
        have := inv.perm
        rw [hst] at this
        exact this
      rw [show (s :: rest) ++ ((pp.arcs.map (fun a => a.2.1)) ++ [tp]) =
        ((s :: rest) ++ pp.arcs.map (fun a => a.2.1)) ++ [tp] by rw [List.append_assoc]]
      exact h1.trans hiv
    · exact (List.chain'_cons.mp hsorted).2
    · show 0 ∈ s :: rest
      have := inv.rootMem; rw [hst] at this
      simp only [List.mem_cons] at this ⊢
      rcases this with h1 | h1
      · exfalso; omega
      · exact h1
  · subst hpp
    refine ⟨by simpa using hn, ?_, ?_, ?_⟩
    · show ((pp.next :: pp.stack) ++ pp.arcs.map (fun a => a.2.1)).Perm
        (List.range (pp.next + 1))
      have h2 : (pp.next :: (pp.stack ++ pp.arcs.map (fun a => a.2.1))).Perm
          (pp.next :: List.range pp.next) := inv.perm.cons pp.next
      have h3 : (pp.next :: List.range pp.next).Perm (List.range (pp.next + 1)) := by
        rw [List.range_succ]
        exact (List.perm_append_singleton _ _).symm
      exact h2.trans h3
    · show List.Chain' (fun x y => y < x) (pp.next :: pp.stack)
      refine List.chain'_cons'.mpr ⟨?_, inv.sorted⟩
      intro y hy
      exact hsub y (List.mem_of_mem_head? hy)
    · exact List.mem_cons_of_mem _ inv.rootMem

theorem stinv_init (s : List (Option String × String)) : StInv (initPP s) := by
  refine ⟨?_, ?_, ?_, ?_⟩
  · simp [initPP]
  · simp [initPP, arcDeps, List.range_succ]
  · simp [initPP]
  · simp [initPP]

theorem stinv_parseSteps (tds : List (Nat × Option String)) :
    ∀ pp pp2 : PartialParse, parseSteps pp tds = some pp2 → StInv pp → StInv pp2 := by
  induction tds with
  | nil => intro pp pp2 h inv; simp [parseSteps] at h; rwa [← h]
  | cons td rest ih =>
    intro pp pp2 h inv
    rcases td with ⟨t, d⟩
    simp only [parseSteps] at h
    rcases hm : parse_step pp t d with _ | pp1
    · rw [hm] at h; simp at h
    · rw [hm] at h
      exact ih pp1 pp2 h (stinv_step pp pp1 t d hm inv)

theorem countShift_cons (t : Nat) (d : Option String)
    (rest : List (Nat × Option String)) :
    countShift ((t, d) :: rest) = countShift rest + (if t = shift_id then 1 else 0) := by
  simp only [countShift, List.countP_cons]
  by_cases h : t = shift_id <;> simp [h]

theorem countArc_cons (t : Nat) (d : Option String)
    (rest : List (Nat × Option String)) :
    countArc ((t, d) :: rest) =
      countArc rest + (if t = left_arc_id ∨ t = right_arc_id then 1 else 0) := by
  simp only [countArc, List.countP_cons]
  by_cases h1 : t = left_arc_id
  · simp [h1]
  · by_cases h2 : t = right_arc_id <;> simp [h1, h2]

theorem parseSteps_counts (tds : List (Nat × Option String)) :
    ∀ pp pp2 : PartialParse, parseSteps pp tds = some pp2 →
      pp2.next = pp.next + countShift tds ∧
      pp2.arcs.length = pp.arcs.length + countArc tds ∧
      pp2.sentence = pp.sentence := by
  induction tds with
  | nil =>
    intro pp pp2 h
    simp [parseSteps] at h
    rw [← h]
    simp [countShift, countArc]
  | cons td rest ih =>
    intro pp pp2 h
    rcases td with ⟨t, d⟩
    simp only [parseSteps] at h
    rcases hm : parse_step pp t d with _ | pp1
    · rw [hm] at h; simp at h
    · rw [hm] at h
      have hstep := ih pp1 pp2 h
      rcases parse_step_some_cases pp pp1 t d hm with
        ⟨ht, tp, s2, r, hst, hs0, hpp⟩ | ⟨ht, tp, s2, r, hst, hpp⟩ | ⟨ht, hn, hpp⟩
      · subst ht
        rw [hpp] at hstep
        dsimp only at hstep
        rw [countShift_cons, countArc_cons,
          if_neg (by decide : ¬ (left_arc_id = shift_id)),
          if_pos (Or.inl rfl : left_arc_id = left_arc_id ∨ left_arc_id = right_arc_id)]
        rcases hstep with ⟨e1, e2, e3⟩
        rw [List.length_append] at e2
        simp only [List.length_cons, List.length_nil] at e2
        exact ⟨by omega, by omega, e3⟩
      · subst ht
        rw [hpp] at hstep
        dsimp only at hstep
        rw [countShift_cons, countArc_cons,
          if_neg (by decide : ¬ (right_arc_id = shift_id)),
          if_pos (Or.inr rfl : right_arc_id = left_arc_id ∨ right_arc_id = right_arc_id)]
        rcases hstep with ⟨e1, e2, e3⟩
        rw [List.length_append] at e2
        simp only [List.length_cons, List.length_nil] at e2
        exact ⟨by omega, by omega, e3⟩
      · subst ht
        rw [hpp] at hstep
        dsimp only at hstep
        rw [countShift_cons, countArc_cons,
          if_pos (rfl : shift_id = shift_id),
          if_neg (by decide : ¬ (shift_id = left_arc_id ∨ shift_id = right_arc_id))]
        rcases hstep with ⟨e1, e2, e3⟩
        exact ⟨by omega, by omega, e3⟩

/-- C8: along any legal transition sequence from an initial state (so in
particular throughout any derivation), the dependents of the recorded arcs
are pairwise distinct — each non-root index has at most one head — and the
root index 0 never appears as a dependent; and if the sequence drives the
state to completion over a sentence with `n` non-root tokens, it contains
exactly `n` SHIFT and `n` arc transitions, and the final arcs have exactly
`n` entries in which every index `1..n` occurs as a dependent exactly
once. -/
theorem c8_transition_counts (s : List (Option String × String))
    (tds : List (Nat × Option String)) (pp2 : PartialParse)
    (h : parseSteps (initPP s) tds = some pp2) :
    ((arcDeps pp2).Nodup ∧ 0 ∉ arcDeps pp2) ∧
    (complete pp2 = true →
      countShift tds = s.length ∧ countArc tds = s.length ∧
      pp2.arcs.length = s.length ∧
      ∀ d, 1 ≤ d → d ≤ s.length →
        (pp2.arcs.filter (fun a => a.2.1 == d)).length = 1) := by
  have inv := stinv_parseSteps tds _ _ h (stinv_init s)
  have counts := parseSteps_counts tds _ _ h
  have hnd : (pp2.stack ++ arcDeps pp2).Nodup :=
    inv.perm.nodup_iff.mpr (List.nodup_range _)
  have hnd2 := List.nodup_append.mp hnd
  constructor
  · refine ⟨hnd2.2.1, fun hmem => ?_⟩
    exact hnd2.2.2 inv.rootMem hmem
  · intro hc
    rcases (c5_complete_iff pp2).mp hc with ⟨hlen, hnext⟩
    have hsent : pp2.sentence = (none, root_tag) :: s := counts.2.2
    have hslen : pp2.sentence.length = s.length + 1 := by rw [hsent]; simp
    have hnextval : pp2.next = s.length + 1 := by rw [hnext, hslen]
    have hshift : countShift tds = s.length := by
      have h4 := counts.1
      have h4b : (initPP s).next = 1 := rfl
      rw [h4b] at h4
      omega
    have hplen := inv.perm.length_eq
    have hdlen : (arcDeps pp2).length = pp2.arcs.length := by simp [arcDeps]
    have halen : pp2.arcs.length = s.length := by
      have h5 := hplen
      rw [List.length_append, List.length_range] at h5
      omega
    have harc : countArc tds = s.length := by
      have h4 := counts.2.1
      have h4b : (initPP s).arcs.length = 0 := rfl
      rw [h4b] at h4
      omega
    refine ⟨hshift, harc, halen, fun d hd1 hd2 => ?_⟩
    have hstack : pp2.stack = [0] := by
      rcases hstk : pp2.stack with _ | ⟨a, _ | ⟨b, r⟩⟩
      · rw [hstk] at hlen; simp at hlen
      · have := inv.rootMem
        rw [hstk] at this
        simp at this
        rw [← this]
      · rw [hstk] at hlen; simp at hlen
    have hcountrange : (List.range pp2.next).count d = 1 := by
      apply List.count_eq_one_of_mem (List.nodup_range _)
      rw [List.mem_range]
      omega
    have hcount : (pp2.stack ++ arcDeps pp2).count d = 1 :=
      (inv.perm.count_eq d).trans hcountrange
    rw [List.count_append, hstack] at hcount
    have hc0 : List.count d [0] = 0 := by
      rw [List.count_cons]
      simp only [List.count_nil]
      have hd0 : ¬ ((0 : Nat) == d) = true := by
        simp
        omega
      simp [hd0]
    have hcdeps : (arcDeps pp2).count d = 1 := by
      rw [hc0] at hcount
      omega
    have : (arcDeps pp2).count d =
        (pp2.arcs.filter (fun a => a.2.1 == d)).length := by
      rw [List.count, arcDeps, List.countP_map, List.countP_eq_length_filter]
      rfl
    rw [← this]
    exact hcdeps

/-- Witness for C8: the sentence with one non-root token parsed to
completion by one SHIFT and one RIGHT-ARC. -/
theorem c8_transition_counts_witness :
    countShift [(shift_id, none), (right_arc_id, some "r")] = 1 ∧
    countArc [(shift_id, none), (right_arc_id, some "r")] = 1 ∧
    (0 : Nat) ∉ arcDeps (PartialParse.mk [(none, root_tag), (some "w", "N")]
      [0] 2 [(0, 1, some "r")]) := by
  have h := c8_transition_counts [(some "w", "N")]
    [(shift_id, none), (right_arc_id, some "r")]
    (PartialParse.mk [(none, root_tag), (some "w", "N")] [0] 2 [(0, 1, some "r")])
    (by decide)
  have h2 := h.2 (by decide)
  exact ⟨h2.1, h2.2.1, h.1.2⟩

/-! ### C2: ancestry in a gold tree -/

theorem isAnc_of_head (gt : GoldTree) {x h : Nat} (hh : gt.head x = some h) :
    IsAnc gt x h :=
  IsAnc.step hh (IsAnc.refl h)

theorem isAnc_trans (gt : GoldTree) {x y z : Nat}
    (h1 : IsAnc gt x y) (h2 : IsAnc gt y z) : IsAnc gt x z := by
  induction h1 with
  | refl => exact h2
  | step hh _ ih => exact IsAnc.step hh (ih h2)

theorem isAnc_le (gt : GoldTree) (n : Nat)
    (hb : ∀ d h, d ≤ n → gt.head d = some h → h ≤ n)
    {x y : Nat} (h : IsAnc gt x y) (hx : x ≤ n) : y ≤ n := by
  induction h with
  | refl => exact hx
  | step hh _ ih => exact ih (hb _ _ hx hh)

theorem isAnc_rank (gt : GoldTree) (n : Nat)
    (hb : ∀ d h, d ≤ n → gt.head d = some h → h ≤ n)
    (f : Nat → Nat) (hf : ∀ d h, d ≤ n → gt.head d = some h → f h < f d)
    {x y : Nat} (h : IsAnc gt x y) (hx : x ≤ n) (hxy : x ≠ y) : f y < f x := by
  induction h with
  | refl => exact absurd rfl hxy
  | @step a h' b hh h2 ih =>
    have hstep : f h' < f a := hf _ _ hx hh
    by_cases he : h' = b
    · rw [← he]; exact hstep
    · exact lt_trans (ih (hb _ _ hx hh) he) hstep

theorem isAnc_antisym (gt : GoldTree) (n : Nat)
    (hb : ∀ d h, d ≤ n → gt.head d = some h → h ≤ n)
    (f : Nat → Nat) (hf : ∀ d h, d ≤ n → gt.head d = some h → f h < f d)
    {x y : Nat} (h1 : IsAnc gt x y) (h2 : IsAnc gt y x) (hx : x ≤ n) : x = y := by
  by_contra hne
  have ha : f y < f x := isAnc_rank gt n hb f hf h1 hx hne
  have hyn : y ≤ n := isAnc_le gt n hb h1 hx
  have hb2 : f x < f y := isAnc_rank gt n hb f hf h2 hyn (Ne.symm hne)
  omega

theorem isAnc_inv (gt : GoldTree) {x y : Nat} (h : IsAnc gt x y) (hxy : x ≠ y) :
    ∃ h', gt.head x = some h' ∧ IsAnc gt h' y := by
  cases h with
  | refl => exact absurd rfl hxy
  | step hh h2 => exact ⟨_, hh, h2⟩

theorem list_exists_max (f : Nat → Nat) (l : List Nat) (hne : l ≠ []) :
    ∃ x ∈ l, ∀ y ∈ l, f y ≤ f x := by
  induction l with
  | nil => exact absurd rfl hne
  | cons a l2 ih =>
    rcases l2 with _ | ⟨b, l3⟩
    · exact ⟨a, List.mem_cons_self a [], by
        intro y hy
        rcases List.mem_cons.mp hy with h | h
        · rw [h]
        · simp at h⟩
    · obtain ⟨x, hx, hmax⟩ := ih (by simp)
      by_cases hc : f x ≤ f a
      · refine ⟨a, List.mem_cons_self _ _, ?_⟩
        intro y hy
        rcases List.mem_cons.mp hy with h | h
        · rw [h]
        · exact le_trans (hmax y h) hc
      · refine ⟨x, List.mem_cons_of_mem _ hx, ?_⟩
        intro y hy
        rcases List.mem_cons.mp hy with h | h
        · rw [h]; omega
        · exact hmax y h

theorem list_exists_max_id (l : List Nat) (hne : l ≠ []) :
    ∃ x ∈ l, ∀ y ∈ l, y ≤ x := by
  obtain ⟨x, hx, hm⟩ := list_exists_max id l hne
  exact ⟨x, hx, hm⟩

theorem filter_length_two_lt (l : List Nat) (p : Nat → Bool) (a b : Nat)
    (hnd : l.Nodup) (ha : a ∈ l) (hb : b ∈ l) (hab : a ≠ b)
    (hpa : p a = false) (hpb : p b = false) :
    (l.filter p).length + 2 ≤ l.length := by
  have hperm : l.Perm (a :: l.erase a) := List.perm_cons_erase ha
  have hbe : b ∈ l.erase a := (List.mem_erase_of_ne (Ne.symm hab)).mpr hb
  have hperm2 : (l.erase a).Perm (b :: (l.erase a).erase b) :=
    List.perm_cons_erase hbe
  have hp3 : l.Perm (a :: b :: (l.erase a).erase b) :=
    hperm.trans (hperm2.cons a)
  have hf : (l.filter p).Perm ((a :: b :: (l.erase a).erase b).filter p) :=
    hp3.filter p
  have hlen1 : (l.filter p).length =
      (((l.erase a).erase b).filter p).length := by
    rw [hf.length_eq]
    simp [List.filter_cons, hpa, hpb]
  have hlen2 : l.length = ((l.erase a).erase b).length + 2 := by
    rw [hp3.length_eq]
    simp
  rw [hlen1, hlen2]
  have := List.length_filter_le p ((l.erase a).erase b)
  omega

theorem closed_root_child (gt : GoldTree) (n : Nat)
    (hb : ∀ d h, d ≤ n → gt.head d = some h → h ≤ n)
    (f : Nat → Nat) (hf : ∀ d h, d ≤ n → gt.head d = some h → f h < f d)
    (S : List Nat) (r : Nat) (hSn : ∀ x ∈ S, x ≤ n)
    (hcl : ∀ x ∈ S, x ≠ r → ∃ h, gt.head x = some h ∧ h ∈ S) :
    ∀ k x, f x ≤ k → x ∈ S → x ≠ r → ∃ c ∈ S, gt.head c = some r := by
  intro k
  induction k with
  | zero =>
    intro x hfx hx hxr
    obtain ⟨h, hh, hhS⟩ := hcl x hx hxr
    by_cases hhr : h = r
    · exact ⟨x, hx, by rw [hh, hhr]⟩
    · have : f h < f x := hf x h (hSn x hx) hh
      omega
  | succ k ih =>
    intro x hfx hx hxr
    obtain ⟨h, hh, hhS⟩ := hcl x hx hxr
    by_cases hhr : h = r
    · exact ⟨x, hx, by rw [hh, hhr]⟩
    · have : f h < f x := hf x h (hSn x hx) hh
      exact ih h (by omega) hhS hhr

theorem closed_leaf_exists (gt : GoldTree) (n : Nat)
    (f : Nat → Nat) (hf : ∀ d h, d ≤ n → gt.head d = some h → f h < f d)
    (S : List Nat) (hne : S ≠ []) (hSn : ∀ x ∈ S, x ≤ n) :
    ∃ x ∈ S, ∀ e ∈ S, gt.head e ≠ some x := by
  obtain ⟨x, hx, hmax⟩ := list_exists_max f S hne
  refine ⟨x, hx, fun e he hhead => ?_⟩
  have h1 : f x < f e := hf e x (hSn e he) hhead
  have h2 := hmax e he
  omega

theorem closed_leaf_below (gt : GoldTree) (n : Nat)
    (f : Nat → Nat) (hf : ∀ d h, d ≤ n → gt.head d = some h → f h < f d)
    (S : List Nat) (hSn : ∀ x ∈ S, x ≤ n) (M : Nat) (hM : ∀ x ∈ S, f x ≤ M) :
    ∀ j x, x ∈ S → M - f x ≤ j →
      ∃ l2 ∈ S, IsAnc gt l2 x ∧ (∀ e ∈ S, gt.head e ≠ some l2) := by
  intro j
  induction j with
  | zero =>
    intro x hx hj
    by_cases hleaf : ∀ e ∈ S, gt.head e ≠ some x
    · exact ⟨x, hx, IsAnc.refl x, hleaf⟩
    · push_neg at hleaf
      obtain ⟨e, he, hhead⟩ := hleaf
      have h1 : f x < f e := hf e x (hSn e he) hhead
      have h2 := hM e he
      have h3 := hM x hx
      omega
  | succ j ih =>
    intro x hx hj
    by_cases hleaf : ∀ e ∈ S, gt.head e ≠ some x
    · exact ⟨x, hx, IsAnc.refl x, hleaf⟩
    · push_neg at hleaf
      obtain ⟨e, he, hhead⟩ := hleaf
      have h1 : f x < f e := hf e x (hSn e he) hhead
      have h2 := hM e he
      obtain ⟨l2, hl2S, hl2anc, hl2leaf⟩ := ih e he (by omega)
      exact ⟨l2, hl2S, isAnc_trans gt hl2anc (isAnc_of_head gt hhead), hl2leaf⟩

theorem stuck_lemma (gt : GoldTree) (n : Nat)
    (hb : ∀ d h, d ≤ n → gt.head d = some h → h ≤ n)
    (f : Nat → Nat) (hf : ∀ d h, d ≤ n → gt.head d = some h → f h < f d)
    (hproj : Projective gt) :
    ∀ (m : Nat) (S : List Nat), S.length ≤ m → S.Nodup → 2 ≤ S.length →
      (∀ x ∈ S, x ≤ n) →
      ∀ r, r ∈ S → (∀ x ∈ S, r ≤ x) →
      (∀ x ∈ S, x ≠ r → ∃ h, gt.head x = some h ∧ h ∈ S) →
      ∃ u v, u ∈ S ∧ v ∈ S ∧ u < v ∧ (∀ w ∈ S, ¬(u < w ∧ w < v)) ∧
        ((gt.head v = some u ∧ ∀ e ∈ S, gt.head e ≠ some v) ∨
         (gt.head u = some v ∧ ∀ e ∈ S, gt.head e ≠ some u)) := by
  intro m
  induction m with
  | zero => intro S hlen _ h2 _ _ _ _ _; omega
  | succ m ih =>
    intro S hlen hnd h2 hSn r hrS hrmin hcl
    have hSne : S ≠ [] := by
      intro h; rw [h] at h2; simp at h2
    -- the set of leaves of the S-forest, as a filtered list
    have hLmem : ∀ x, (x ∈ S.filter
        (fun x => S.all (fun e => !(gt.head e == some x)))) ↔
        (x ∈ S ∧ ∀ e ∈ S, gt.head e ≠ some x) := by
      intro x
      rw [List.mem_filter]
      constructor
      · rintro ⟨h1, h2'⟩
        refine ⟨h1, fun e he => ?_⟩
        have := List.all_eq_true.mp h2' e he
        simpa using this
      · rintro ⟨h1, h2'⟩
        refine ⟨h1, List.all_eq_true.mpr fun e he => ?_⟩
        simpa using h2' e he
    obtain ⟨x0, hx0S, hx0leaf⟩ := closed_leaf_exists gt n f hf S hSne hSn
    have hx0L : x0 ∈ S.filter (fun x => S.all (fun e => !(gt.head e == some x))) :=
      (hLmem x0).mpr ⟨hx0S, hx0leaf⟩
    obtain ⟨v1, hv1L, hv1max⟩ :=
      list_exists_max_id _ (List.ne_nil_of_mem hx0L)
    rcases (hLmem v1).mp hv1L with ⟨hv1S, hv1leaf⟩
    have hv1maxleaf : ∀ l2 ∈ S, (∀ e ∈ S, gt.head e ≠ some l2) → l2 ≤ v1 := by
      intro l2 hl2 hleaf
      exact hv1max l2 ((hLmem l2).mpr ⟨hl2, hleaf⟩)
    -- r is not a leaf, so v1 ≠ r and v1 has a head inside S
    have hex_ne : ∃ y ∈ S, y ≠ r := by
      rcases S with _ | ⟨a, _ | ⟨b, t⟩⟩
      · simp at h2
      · simp at h2
      · by_cases har : a = r
        · refine ⟨b, by simp, ?_⟩
          intro hbr
          rw [← har] at hbr
          simp [hbr] at hnd
        · exact ⟨a, by simp, har⟩
    obtain ⟨y0, hy0S, hy0r⟩ := hex_ne
    obtain ⟨c0, hc0S, hc0h⟩ :=
      closed_root_child gt n hb f hf S r hSn hcl (f y0) y0 le_rfl hy0S hy0r
    have hv1r : v1 ≠ r := by
      intro he
      rw [he] at hv1leaf
      exact hv1leaf c0 hc0S hc0h
    obtain ⟨u1, hu1, hu1S⟩ := hcl v1 hv1S hv1r
    have hanc_v1u1 : IsAnc gt v1 u1 := isAnc_of_head gt hu1
    have hu1v1 : u1 ≠ v1 := by
      intro he
      have := hf v1 u1 (hSn v1 hv1S) hu1
      rw [he] at this
      omega
    by_cases hcase : v1 < u1
    · -- the max-position leaf hangs to the left of its head: they are adjacent
      refine ⟨v1, u1, hv1S, hu1S, hcase, ?_, Or.inr ⟨hu1, hv1leaf⟩⟩
      rintro w hwS ⟨hw1, hw2⟩
      have hwanc : IsAnc gt w u1 :=
        hproj u1 v1 w u1 (le_of_lt hw1) (le_of_lt hw2) hanc_v1u1 (IsAnc.refl u1)
      have hv1nsub : ¬ IsAnc gt v1 w := by
        intro hcon
        obtain ⟨h', hh', hanc'⟩ := isAnc_inv gt hcon (by omega : v1 ≠ w)
        rw [hu1] at hh'
        have hh'' : u1 = h' := by injection hh'
        rw [← hh''] at hanc'
        have := isAnc_antisym gt n hb f hf hwanc hanc' (hSn w hwS)
        omega
      have hsubgt : ∀ z, IsAnc gt z w → v1 < z := by
        intro z hz
        by_contra hle
        push_neg at hle
        exact hv1nsub (hproj w z v1 w hle (le_of_lt hw1) hz (IsAnc.refl w))
      obtain ⟨xM, hxM, hMmax⟩ := list_exists_max f S hSne
      obtain ⟨l2, hl2S, hl2anc, hl2leaf⟩ :=
        closed_leaf_below gt n f hf S hSn (f xM) hMmax (f xM) w hwS (by omega)
      have h1 : l2 ≤ v1 := hv1maxleaf l2 hl2S hl2leaf
      have h2' : v1 < l2 := hsubgt l2 hl2anc
      omega
    · push_neg at hcase
      have hu1lt : u1 < v1 := lt_of_le_of_ne hcase hu1v1
      have hWmem : ∀ w, (w ∈ S.filter
          (fun w => decide (u1 < w) && decide (w < v1))) ↔
          (w ∈ S ∧ u1 < w ∧ w < v1) := by
        intro w
        rw [List.mem_filter]
        simp
      by_cases hW : S.filter (fun w => decide (u1 < w) && decide (w < v1)) = []
      · -- no stack element strictly between u1 and v1: adjacent
        refine ⟨u1, v1, hu1S, hv1S, hu1lt, ?_, Or.inl ⟨hu1, hv1leaf⟩⟩
        rintro w hwS ⟨hw1, hw2⟩
        have : w ∈ S.filter (fun w => decide (u1 < w) && decide (w < v1)) :=
          (hWmem w).mpr ⟨hwS, hw1, hw2⟩
        rw [hW] at this
        simp at this
      · -- recurse inside the interval (u1, v1)
        obtain ⟨w0, hw0⟩ := List.exists_mem_of_ne_nil _ hW
        rcases (hWmem w0).mp hw0 with ⟨hw0S, hw0gt, hw0lt⟩
        have hWanc : ∀ w, w ∈ S → u1 < w → w < v1 → IsAnc gt w u1 := by
          intro w _ h1' h2'
          exact hproj u1 u1 w v1 (le_of_lt h1') (le_of_lt h2')
            (IsAnc.refl u1) hanc_v1u1
        have hWsub : ∀ w, w ∈ S → u1 < w → w < v1 →
            ∀ z, IsAnc gt z w → u1 < z ∧ z < v1 := by
          intro w hwS h1' h2' z hz
          have hwanc : IsAnc gt w u1 := hWanc w hwS h1' h2'
          have hwn : w ≤ n := hSn w hwS
          constructor
          · by_contra hle
            push_neg at hle
            have hu1sub : IsAnc gt u1 w := by
              rcases Nat.lt_or_ge z u1 with hzu | hzu
              · exact hproj w z u1 w (le_of_lt hzu) (le_of_lt h1') hz
                  (IsAnc.refl w)
              · have : z = u1 := by omega
                rw [← this]; exact hz
            have := isAnc_antisym gt n hb f hf hwanc hu1sub hwn
            omega
          · by_contra hge
            push_neg at hge
            have hv1sub : IsAnc gt v1 w := by
              rcases Nat.lt_or_ge v1 z with hvz | hvz
              · exact hproj w w v1 z (le_of_lt h2') (le_of_lt hvz)
                  (IsAnc.refl w) hz
              · have : z = v1 := by omega
                rw [← this]; exact hz
            obtain ⟨h', hh', hanc'⟩ := isAnc_inv gt hv1sub (by omega : v1 ≠ w)
            rw [hu1] at hh'
            have hh'' : u1 = h' := by injection hh'
            rw [← hh''] at hanc'
            have := isAnc_antisym gt n hb f hf hwanc hanc' hwn
            omega
        -- closure of {u1} ∪ W
        have hcl'' : ∀ x ∈ u1 :: S.filter (fun w => decide (u1 < w) && decide (w < v1)),
            x ≠ u1 → ∃ h, gt.head x = some h ∧
              h ∈ u1 :: S.filter (fun w => decide (u1 < w) && decide (w < v1)) := by
          intro x hx hxu1
          rcases List.mem_cons.mp hx with he | hW'
          · exact absurd he hxu1
          rcases (hWmem x).mp hW' with ⟨hxS, hx1, hx2⟩
          have hxr : x ≠ r := by
            have := hrmin u1 hu1S
            omega
          obtain ⟨p, hp, hpS⟩ := hcl x hxS hxr
          have hxancu1 : IsAnc gt x u1 := hWanc x hxS hx1 hx2
          obtain ⟨p', hp', hanc'⟩ := isAnc_inv gt hxancu1 hxu1
          rw [hp] at hp'
          have hpp : p = p' := by injection hp'
          rw [← hpp] at hanc'
          -- hanc' : IsAnc gt p u1
          by_cases hpu1 : p = u1
          · exact ⟨p, hp, by rw [hpu1]; exact List.mem_cons_self _ _⟩
          · have hpv1 : p ≠ v1 := by
              intro he
              rw [he] at hp
              exact hv1leaf x hxS hp
            have hxancp : IsAnc gt x p := isAnc_of_head gt hp
            have hpn : p ≤ n := hSn p hpS
            have hplt : u1 < p := by
              by_contra hle
              push_neg at hle
              have hple : p < u1 := lt_of_le_of_ne hle hpu1
              have : IsAnc gt u1 p :=
                hproj p p u1 x (le_of_lt hple) (le_of_lt hx1)
                  (IsAnc.refl p) hxancp
              have := isAnc_antisym gt n hb f hf hanc' this hpn
              omega
            have hpgt : p < v1 := by
              by_contra hge
              push_neg at hge
              have hpge : v1 < p := by omega
              have hv1subp : IsAnc gt v1 p :=
                hproj p x v1 p (le_of_lt hx2) (le_of_lt hpge) hxancp
                  (IsAnc.refl p)
              obtain ⟨h', hh', hanc2⟩ := isAnc_inv gt hv1subp (by omega : v1 ≠ p)
              rw [hu1] at hh'
              have hh'' : u1 = h' := by injection hh'
              rw [← hh''] at hanc2
              have := isAnc_antisym gt n hb f hf hanc' hanc2 hpn
              omega
            exact ⟨p, hp, List.mem_cons_of_mem _ ((hWmem p).mpr ⟨hpS, hplt, hpgt⟩)⟩
        -- structural facts about u1 :: W
        have hndW : (S.filter (fun w => decide (u1 < w) && decide (w < v1))).Nodup :=
          hnd.filter _
        have hnd'' : (u1 :: S.filter (fun w => decide (u1 < w) && decide (w < v1))).Nodup := by
          refine List.nodup_cons.mpr ⟨?_, hndW⟩
          intro hmem
          rcases (hWmem u1).mp hmem with ⟨_, h1', _⟩
          omega
        have hlenW : (S.filter (fun w => decide (u1 < w) && decide (w < v1))).length + 2 ≤
            S.length := by
          apply filter_length_two_lt S _ u1 v1 hnd hu1S hv1S (by omega)
          · simp
          · simp
        have hSn'' : ∀ x ∈ u1 :: S.filter (fun w => decide (u1 < w) && decide (w < v1)),
            x ≤ n := by
          intro x hx
          rcases List.mem_cons.mp hx with he | hW'
          · rw [he]; exact hSn u1 hu1S
          · exact hSn x ((hWmem x).mp hW').1
        have hmin'' : ∀ x ∈ u1 :: S.filter (fun w => decide (u1 < w) && decide (w < v1)),
            u1 ≤ x := by
          intro x hx
          rcases List.mem_cons.mp hx with he | hW'
          · omega
          · have := ((hWmem x).mp hW').2.1
            omega
        have hub'' : ∀ x ∈ u1 :: S.filter (fun w => decide (u1 < w) && decide (w < v1)),
            x < v1 := by
          intro x hx
          rcases List.mem_cons.mp hx with he | hW'
          · omega
          · exact ((hWmem x).mp hW').2.2
        have hWpos : 0 < (S.filter (fun w => decide (u1 < w) && decide (w < v1))).length :=
          List.length_pos.mpr (List.ne_nil_of_mem hw0)
        obtain ⟨u', v', hu'S'', hv'S'', hu'v', hadj'', hdisj''⟩ :=
          ih (u1 :: S.filter (fun w => decide (u1 < w) && decide (w < v1)))
            (by simp at hlenW ⊢; omega)
            hnd''
            (by simp; omega)
            hSn''
            u1 (List.mem_cons_self _ _) hmin'' hcl''
        have hsubS : ∀ x ∈ u1 :: S.filter (fun w => decide (u1 < w) && decide (w < v1)),
            x ∈ S := by
          intro x hx
          rcases List.mem_cons.mp hx with he | hW'
          · rw [he]; exact hu1S
          · exact ((hWmem x).mp hW').1
        have hleafW : ∀ l2, l2 ∈ S.filter (fun w => decide (u1 < w) && decide (w < v1)) →
            (∀ e ∈ u1 :: S.filter (fun w => decide (u1 < w) && decide (w < v1)),
              gt.head e ≠ some l2) →
            ∀ e ∈ S, gt.head e ≠ some l2 := by
          intro l2 hl2W hleaf'' e heS hhead
          rcases (hWmem l2).mp hl2W with ⟨hl2S, hl21, hl22⟩
          have hanc : IsAnc gt e l2 := isAnc_of_head gt hhead
          have hbnd := hWsub l2 hl2S hl21 hl22 e hanc
          have heW : e ∈ S.filter (fun w => decide (u1 < w) && decide (w < v1)) :=
            (hWmem e).mpr ⟨heS, hbnd⟩
          exact hleaf'' e (List.mem_cons_of_mem _ heW) hhead
        refine ⟨u', v', hsubS u' hu'S'', hsubS v' hv'S'', hu'v', ?_, ?_⟩
        · rintro w hwS ⟨h1', h2'⟩
          have hu'lb := hmin'' u' hu'S''
          have hv'ub := hub'' v' hv'S''
          have hwW : w ∈ S.filter (fun w => decide (u1 < w) && decide (w < v1)) :=
            (hWmem w).mpr ⟨hwS, by omega, by omega⟩
          exact hadj'' w (List.mem_cons_of_mem _ hwW) ⟨h1', h2'⟩
        · rcases hdisj'' with ⟨hh, hlf⟩ | ⟨hh, hlf⟩
          · have hv'W : v' ∈ S.filter (fun w => decide (u1 < w) && decide (w < v1)) := by
              rcases List.mem_cons.mp hv'S'' with he | hW'
              · have := hmin'' u' hu'S''
                omega
              · exact hW'
            exact Or.inl ⟨hh, hleafW v' hv'W hlf⟩
          · have hu'ne : u' ≠ u1 := by
              intro he
              obtain ⟨c, hc, hch⟩ :=
                closed_root_child gt n hb f hf
                  (u1 :: S.filter (fun w => decide (u1 < w) && decide (w < v1)))
                  u1 hSn'' hcl'' (f w0) w0
                  le_rfl (List.mem_cons_of_mem _ hw0) (by omega)
              rw [he] at hlf
              exact hlf c hc hch
            have hu'W : u' ∈ S.filter (fun w => decide (u1 < w) && decide (w < v1)) := by
              rcases List.mem_cons.mp hu'S'' with he | hW'
              · exact absurd he hu'ne
              · exact hW'
            exact Or.inr ⟨hh, hleafW u' hu'W hlf⟩

theorem oracleStep_cases (gt : GoldTree) (pp pp2 : PartialParse)
    (h : oracleStep gt pp = some pp2) :
    complete pp = false ∧
    ((∃ t s rest, pp.stack = t :: s :: rest ∧ gt.head s = some t ∧
        depsAttached pp gt s = true ∧ s ≠ 0 ∧
        pp2 = { pp with stack := t :: rest,
                        arcs := pp.arcs ++ [(t, s, some (gt.deprel s))] }) ∨
     (∃ t s rest, pp.stack = t :: s :: rest ∧
        ¬(gt.head s = some t ∧ depsAttached pp gt s = true) ∧
        gt.head t = some s ∧ depsAttached pp gt t = true ∧
        pp2 = { pp with stack := s :: rest,
                        arcs := pp.arcs ++ [(s, t, some (gt.deprel t))] }) ∨
     ((∀ t s rest, pp.stack = t :: s :: rest →
         ¬(gt.head s = some t ∧ depsAttached pp gt s = true) ∧
         ¬(gt.head t = some s ∧ depsAttached pp gt t = true)) ∧
        pp.next < pp.sentence.length ∧
        pp2 = { pp with stack := pp.next :: pp.stack, next := pp.next + 1 })) := by
  rcases hc : complete pp with _ | _
  case true =>
    exfalso
    simp only [oracleStep, get_oracle, hc, if_true] at h
    simp at h
  refine ⟨rfl, ?_⟩
  rcases hst : pp.stack with _ | ⟨t, _ | ⟨s, rest⟩⟩
  · have hor : get_oracle pp gt = some (shift_id, none) := by
      simp only [get_oracle, hc]
      rw [hst]
      rfl
    simp only [oracleStep, hor] at h
    rw [parse_step_shift] at h
    by_cases hn : pp.next < pp.sentence.length
    · rw [if_pos hn] at h
      rw [hst] at h
      refine Or.inr (Or.inr ⟨?_, hn, (Option.some_injective _ h).symm⟩)
      intro t' s' rest' heq
      simp at heq
    · rw [if_neg hn] at h; simp at h
  · have hor : get_oracle pp gt = some (shift_id, none) := by
      simp only [get_oracle, hc]
      rw [hst]
      rfl
    simp only [oracleStep, hor] at h
    rw [parse_step_shift] at h
    by_cases hn : pp.next < pp.sentence.length
    · rw [if_pos hn] at h
      rw [hst] at h
      refine Or.inr (Or.inr ⟨?_, hn, (Option.some_injective _ h).symm⟩)
      intro t' s' rest' heq
      simp at heq
    · rw [if_neg hn] at h; simp at h
  · have hor := get_oracle_cons pp gt t s rest hst hc
    by_cases hl : gt.head s = some t ∧ depsAttached pp gt s = true
    · have hb1 : (gt.head s == some t && depsAttached pp gt s) = true := by
        simp [hl.1, hl.2]
      rw [hb1, if_pos rfl] at hor
      simp only [oracleStep, hor] at h
      rw [parse_step_left_cons pp (some (gt.deprel s)) t s rest hst] at h
      by_cases hs0 : s = 0
      · rw [if_pos hs0] at h; simp at h
      · rw [if_neg hs0] at h
        exact Or.inl ⟨t, s, rest, rfl, hl.1, hl.2, hs0,
          (Option.some_injective _ h).symm⟩
    · have hb1 : (gt.head s == some t && depsAttached pp gt s) = false := by
        rcases Decidable.not_and_iff_or_not.mp hl with h1 | h1 <;> simp [h1]
      rw [hb1] at hor
      simp only [Bool.false_eq_true, if_false] at hor
      by_cases hr : gt.head t = some s ∧ depsAttached pp gt t = true
      · have hb2 : (gt.head t == some s && depsAttached pp gt t) = true := by
          simp [hr.1, hr.2]
        rw [hb2, if_pos rfl] at hor
        simp only [oracleStep, hor] at h
        rw [parse_step_right_cons pp (some (gt.deprel t)) t s rest hst] at h
        exact Or.inr (Or.inl ⟨t, s, rest, rfl, hl, hr.1, hr.2,
          (Option.some_injective _ h).symm⟩)
      · have hb2 : (gt.head t == some s && depsAttached pp gt t) = false := by
          rcases Decidable.not_and_iff_or_not.mp hr with h1 | h1 <;> simp [h1]
        rw [hb2] at hor
        simp only [Bool.false_eq_true, if_false] at hor
        simp only [oracleStep, hor] at h
        rw [parse_step_shift] at h
        by_cases hn : pp.next < pp.sentence.length
        · rw [if_pos hn] at h
          rw [hst] at h
          refine Or.inr (Or.inr ⟨?_, hn, (Option.some_injective _ h).symm⟩)
          intro t' s' rest' heq
          injection heq with h1 h2
          injection h2 with h2 h3
          subst h1; subst h2
          exact ⟨hl, hr⟩
        · rw [if_neg hn] at h; simp at h

theorem oracleStep_parse_step (gt : GoldTree) (pp pp2 : PartialParse)
    (h : oracleStep gt pp = some pp2) :
    ∃ t d, parse_step pp t d = some pp2 := by
  unfold oracleStep at h
  rcases ho : get_oracle pp gt with _ | ⟨t, d⟩
  · rw [ho] at h; simp at h
  · rw [ho] at h; exact ⟨t, d, h⟩

theorem attachedB_arcs_append (pp : PartialParse) (st : List Nat) (nx : Nat)
    (a : Arc) (e : Nat) :
    attachedB { sentence := pp.sentence, stack := st, next := nx,
                arcs := pp.arcs ++ [a] } e = true ↔
      (attachedB pp e = true ∨ e = a.2.1) := by
  simp only [attachedB, List.any_append, Bool.or_eq_true, List.any_cons,
    List.any_nil, Bool.or_false, beq_iff_eq]
  constructor
  · rintro (h1 | h1)
    · exact Or.inl h1
    · exact Or.inr h1.symm
  · rintro (h1 | h1)
    · exact Or.inl h1
    · exact Or.inr h1.symm

theorem depsAttached_frozen_iff (pp : PartialParse) (st : List Nat) (nx : Nat)
    (a : Arc) (gt : GoldTree) (x : Nat) (hnot : a.2.1 ∉ gt.deps x) :
    depsAttached { sentence := pp.sentence, stack := st, next := nx,
                   arcs := pp.arcs ++ [a] } gt x = true ↔
      depsAttached pp gt x = true := by
  simp only [depsAttached, List.all_eq_true]
  constructor <;> intro h e he
  · have h2 := h e he
    rw [attachedB_arcs_append] at h2
    rcases h2 with h1 | h1
    · exact h1
    · rw [h1] at he
      exact absurd he hnot
  · rw [attachedB_arcs_append]
    exact Or.inl (h e he)

theorem oinv_step (gt : GoldTree) (n : Nat) (wf : GoldWF gt n)
    (pp pp2 : PartialParse) (h : oracleStep gt pp = some pp2)
    (inv : OInv gt pp) : OInv gt pp2 := by
  obtain ⟨t0, d0, hps⟩ := oracleStep_parse_step gt pp pp2 h
  have base2 := stinv_step pp pp2 t0 d0 hps inv.base
  obtain ⟨hc, hcases⟩ := oracleStep_cases gt pp pp2 h
  haveI : IsTrans Nat (fun a b => b < a) := ⟨fun a b c h1 h2 => lt_trans h2 h1⟩
  have hpw := List.chain'_iff_pairwise.mp inv.base.sorted
  rcases hcases with ⟨t, s, rest, hst, hhead, hdeps, hs0, hpp⟩ |
      ⟨t, s, rest, hst, hnl, hhead, hdeps, hpp⟩ | ⟨hrej, hn, hpp⟩
  · -- LEFT-ARC
    subst hpp
    have hpw' := hpw
    rw [hst] at hpw'
    have hts : s < t := (List.pairwise_cons.mp hpw').1 s (List.mem_cons_self _ _)
    have hpw2 := (List.pairwise_cons.mp hpw').2
    have hrest : ∀ x ∈ rest, x < s :=
      fun x hx => (List.pairwise_cons.mp hpw2).1 x hx
    have hmono : ∀ e', attachedB pp e' = true →
        attachedB (PartialParse.mk pp.sentence (t :: rest) pp.next
          (pp.arcs ++ [(t, s, some (gt.deprel s))])) e' = true := by
      intro e' h'
      rw [attachedB_arcs_append]
      exact Or.inl h'
    refine ⟨base2, ?_, ?_, ?_⟩
    · intro a ha
      dsimp only at ha
      rcases List.mem_append.mp ha with h1 | h1
      · exact inv.sound a h1
      · simp only [List.mem_singleton] at h1
        subst h1
        exact ⟨hhead, rfl⟩
    · intro a ha e he
      dsimp only at ha
      rcases List.mem_append.mp ha with h1 | h1
      · exact hmono e (inv.closure a h1 e he)
      · simp only [List.mem_singleton] at h1
        subst h1
        exact hmono e (List.all_eq_true.mp hdeps e he)
    · intro u v hu hv huv hbet hne
      dsimp only at hu hv hbet hne
      have hvt : v ≠ t := by
        intro he
        exact hne (by rw [he]; rfl)
      have hvrest : v ∈ rest := by
        rcases List.mem_cons.mp hv with he | he
        · exact absurd he hvt
        · exact he
      have hvs : v < s := hrest v hvrest
      have hurest : u ∈ rest := by
        rcases List.mem_cons.mp hu with he | he
        · exfalso; omega
        · exact he
      have hbet' : ∀ w ∈ pp.stack, ¬(u < w ∧ w < v) := by
        intro w hw hwb
        rw [hst] at hw
        rcases List.mem_cons.mp hw with he | hw2
        · omega
        rcases List.mem_cons.mp hw2 with he | hw3
        · omega
        · exact hbet w (List.mem_cons_of_mem _ hw3) hwb
      have hcov := inv.covered u v
        (by rw [hst]; exact List.mem_cons_of_mem _ (List.mem_cons_of_mem _ hurest))
        (by rw [hst]; exact List.mem_cons_of_mem _ (List.mem_cons_of_mem _ hvrest))
        huv hbet'
        (by rw [hst]; simp; omega)
      have hfv : depsAttached (PartialParse.mk pp.sentence (t :: rest) pp.next
          (pp.arcs ++ [(t, s, some (gt.deprel s))])) gt v = true ↔
          depsAttached pp gt v = true := by
        apply depsAttached_frozen_iff
        intro hmem
        have := (wf.depsMem v s hmem).2.2
        rw [hhead] at this
        have : t = v := by injection this
        omega
      have hfu : depsAttached (PartialParse.mk pp.sentence (t :: rest) pp.next
          (pp.arcs ++ [(t, s, some (gt.deprel s))])) gt u = true ↔
          depsAttached pp gt u = true := by
        apply depsAttached_frozen_iff
        intro hmem
        have := (wf.depsMem u s hmem).2.2
        rw [hhead] at this
        have : t = u := by injection this
        omega
      constructor
      · rintro ⟨h1, h2⟩
        exact hcov.1 ⟨h1, hfv.mp h2⟩
      · rintro ⟨h1, h2⟩
        exact hcov.2 ⟨h1, hfu.mp h2⟩
  · -- RIGHT-ARC
    subst hpp
    have hpw' := hpw
    rw [hst] at hpw'
    have hts : s < t := (List.pairwise_cons.mp hpw').1 s (List.mem_cons_self _ _)
    have hpw2 := (List.pairwise_cons.mp hpw').2
    have hrest : ∀ x ∈ rest, x < s :=
      fun x hx => (List.pairwise_cons.mp hpw2).1 x hx
    have hmono : ∀ e', attachedB pp e' = true →
        attachedB (PartialParse.mk pp.sentence (s :: rest) pp.next
          (pp.arcs ++ [(s, t, some (gt.deprel t))])) e' = true := by
      intro e' h'
      rw [attachedB_arcs_append]
      exact Or.inl h'
    refine ⟨base2, ?_, ?_, ?_⟩
    · intro a ha
      dsimp only at ha
      rcases List.mem_append.mp ha with h1 | h1
      · exact inv.sound a h1
      · simp only [List.mem_singleton] at h1
        subst h1
        exact ⟨hhead, rfl⟩
    · intro a ha e he
      dsimp only at ha
      rcases List.mem_append.mp ha with h1 | h1
      · exact hmono e (inv.closure a h1 e he)
      · simp only [List.mem_singleton] at h1
        subst h1
        exact hmono e (List.all_eq_true.mp hdeps e he)
    · intro u v hu hv huv hbet hne
      dsimp only at hu hv hbet hne
      have hvs : v ≠ s := by
        intro he
        exact hne (by rw [he]; rfl)
      have hvrest : v ∈ rest := by
        rcases List.mem_cons.mp hv with he | he
        · exact absurd he hvs
        · exact he
      have hvlt : v < s := hrest v hvrest
      have hurest : u ∈ rest := by
        rcases List.mem_cons.mp hu with he | he
        · exfalso; omega
        · exact he
      have hbet' : ∀ w ∈ pp.stack, ¬(u < w ∧ w < v) := by
        intro w hw hwb
        rw [hst] at hw
        rcases List.mem_cons.mp hw with he | hw2
        · omega
        rcases List.mem_cons.mp hw2 with he | hw3
        · omega
        · exact hbet w (List.mem_cons_of_mem _ hw3) hwb
      have hcov := inv.covered u v
        (by rw [hst]; exact List.mem_cons_of_mem _ (List.mem_cons_of_mem _ hurest))
        (by rw [hst]; exact List.mem_cons_of_mem _ (List.mem_cons_of_mem _ hvrest))
        huv hbet'
        (by rw [hst]; simp; omega)
      have hfv : depsAttached (PartialParse.mk pp.sentence (s :: rest) pp.next
          (pp.arcs ++ [(s, t, some (gt.deprel t))])) gt v = true ↔
          depsAttached pp gt v = true := by
        apply depsAttached_frozen_iff
        intro hmem
        have := (wf.depsMem v t hmem).2.2
        rw [hhead] at this
        have : s = v := by injection this
        omega
      have hfu : depsAttached (PartialParse.mk pp.sentence (s :: rest) pp.next
          (pp.arcs ++ [(s, t, some (gt.deprel t))])) gt u = true ↔
          depsAttached pp gt u = true := by
        apply depsAttached_frozen_iff
        intro hmem
        have := (wf.depsMem u t hmem).2.2
        rw [hhead] at this
        have : s = u := by injection this
        omega
      constructor
      · rintro ⟨h1, h2⟩
        exact hcov.1 ⟨h1, hfv.mp h2⟩
      · rintro ⟨h1, h2⟩
        exact hcov.2 ⟨h1, hfu.mp h2⟩
  · -- SHIFT
    subst hpp
    have hsub : ∀ x ∈ pp.stack, x < pp.next := by
      intro x hx
      have : x ∈ List.range pp.next :=
        inv.base.perm.mem_iff.mp (List.mem_append_left _ hx)
      exact List.mem_range.mp this
    refine ⟨base2, ?_, ?_, ?_⟩
    · intro a ha
      exact inv.sound a ha
    · intro a ha e he
      exact inv.closure a ha e he
    · intro u v hu hv huv hbet hne
      dsimp only at hu hv hbet hne
      have hvnext : v ≠ pp.next := by
        intro he
        exact hne (by rw [he]; rfl)
      have hv' : v ∈ pp.stack := by
        rcases List.mem_cons.mp hv with he | he
        · exact absurd he hvnext
        · exact he
      have hvlt : v < pp.next := hsub v hv'
      have hu' : u ∈ pp.stack := by
        rcases List.mem_cons.mp hu with he | he
        · exfalso; omega
        · exact he
      have hbet' : ∀ w ∈ pp.stack, ¬(u < w ∧ w < v) :=
        fun w hw => hbet w (List.mem_cons_of_mem _ hw)
      by_cases hvt : pp.stack.head? = some v
      · -- v was the old top; u must be the old second element
        rcases hstk : pp.stack with _ | ⟨t1, tail⟩
        · rw [hstk] at hv'; simp at hv'
        have ht1v : t1 = v := by
          rw [hstk] at hvt
          simpa using hvt
        rcases htl : tail with _ | ⟨s1, rest1⟩
        · rw [hstk, htl] at hu'
          simp at hu'
          omega
        have hpwold := hpw
        rw [hstk, htl] at hpwold
        have hs1t : s1 < t1 :=
          (List.pairwise_cons.mp hpwold).1 s1 (List.mem_cons_self _ _)
        have hrest1 : ∀ x ∈ rest1, x < s1 :=
          fun x hx => (List.pairwise_cons.mp (List.pairwise_cons.mp hpwold).2).1 x hx
        have hus1 : u = s1 := by
          rw [hstk, htl] at hu'
          rcases List.mem_cons.mp hu' with he | hu2
          · omega
          rcases List.mem_cons.mp hu2 with he | hu3
          · exact he
          · exfalso
            have hul : u < s1 := hrest1 u hu3
            exact hbet' s1 (by rw [hstk, htl]; simp) ⟨hul, by omega⟩
        have hr := hrej t1 s1 rest1 (by rw [hstk, htl])
        constructor
        · rintro ⟨h1, h2⟩
          refine hr.2 ⟨?_, ?_⟩
          · rw [ht1v, ← hus1]; exact h1
          · rw [ht1v]; exact h2
        · rintro ⟨h1, h2⟩
          refine hr.1 ⟨?_, ?_⟩
          · rw [← hus1, ht1v]; exact h1
          · rw [← hus1]; exact h2
      · exact inv.covered u v hu' hv' huv hbet' hvt

theorem attachedB_iff_mem (pp : PartialParse) (e : Nat) :
    attachedB pp e = true ↔ e ∈ arcDeps pp := by
  simp [attachedB, List.any_eq_true, beq_iff_eq, arcDeps, List.mem_map]

theorem oinv_init (gt : GoldTree) (s : List (Option String × String)) :
    OInv gt (initPP s) := by
  refine ⟨stinv_init s, ?_, ?_, ?_⟩
  · intro a ha; simp [initPP] at ha
  · intro a ha; simp [initPP] at ha
  · intro u v hu hv huv _ _
    simp [initPP] at hu hv
    omega

theorem oracle_progress (gt : GoldTree) (n : Nat) (wf : GoldWF gt n)
    (hproj : Projective gt) (pp : PartialParse) (inv : OInv gt pp)
    (hcmp : complete pp = false) (hlen : pp.sentence.length = n + 1) :
    ∃ pp2, oracleStep gt pp = some pp2 := by
  have hsub : ∀ x ∈ pp.stack, x < pp.next := by
    intro x hx
    have : x ∈ List.range pp.next :=
      inv.base.perm.mem_iff.mp (List.mem_append_left _ hx)
    exact List.mem_range.mp this
  have hnd : (pp.stack ++ arcDeps pp).Nodup :=
    inv.base.perm.nodup_iff.mpr (List.nodup_range _)
  have hnd2 := List.nodup_append.mp hnd
  rcases hst : pp.stack with _ | ⟨t, _ | ⟨s, rest⟩⟩
  · exfalso
    have := inv.base.rootMem
    rw [hst] at this
    simp at this
  · have ho : get_oracle pp gt = some (shift_id, none) := by
      simp only [get_oracle, hcmp]
      rw [hst]
      rfl
    have hlt : pp.next < pp.sentence.length := by
      have h2 : pp.stack.length = 1 := by rw [hst]; rfl
      have h3 : ¬ (pp.stack.length = 1 ∧ pp.next = pp.sentence.length) := by
        intro hcon
        have h4 := (c5_complete_iff pp).mpr hcon
        rw [h4] at hcmp
        simp at hcmp
      have h5 := inv.base.nextLe
      have h6 : ¬ pp.next = pp.sentence.length := fun hcon => h3 ⟨h2, hcon⟩
      omega
    refine ⟨{ pp with stack := pp.next :: pp.stack, next := pp.next + 1 }, ?_⟩
    simp only [oracleStep, ho]
    rw [parse_step_shift, if_pos hlt]
  · have hpwall := List.chain'_iff_pairwise.mp inv.base.sorted
    have hpw := hpwall
    rw [hst] at hpw
    have hts : s < t := (List.pairwise_cons.mp hpw).1 s (List.mem_cons_self _ _)
    have hrest : ∀ x ∈ rest, x < s :=
      fun x hx => (List.pairwise_cons.mp (List.pairwise_cons.mp hpw).2).1 x hx
    by_cases hl : gt.head s = some t ∧ depsAttached pp gt s = true
    · have hb1 : (gt.head s == some t && depsAttached pp gt s) = true := by
        simp [hl.1, hl.2]
      have ho := get_oracle_cons pp gt t s rest hst hcmp
      rw [hb1, if_pos rfl] at ho
      have hs0 : s ≠ 0 := by
        intro h0
        rw [h0, wf.head0] at hl
        simp at hl
      refine ⟨{ pp with stack := t :: rest, arcs := pp.arcs ++ [(t, s, some (gt.deprel s))] }, ?_⟩
      simp only [oracleStep, ho]
      rw [parse_step_left_cons pp (some (gt.deprel s)) t s rest hst, if_neg hs0]
    · have hb1 : (gt.head s == some t && depsAttached pp gt s) = false := by
        rcases Decidable.not_and_iff_or_not.mp hl with h1 | h1 <;> simp [h1]
      have ho := get_oracle_cons pp gt t s rest hst hcmp
      rw [hb1] at ho
      simp only [Bool.false_eq_true, if_false] at ho
      by_cases hr : gt.head t = some s ∧ depsAttached pp gt t = true
      · have hb2 : (gt.head t == some s && depsAttached pp gt t) = true := by
          simp [hr.1, hr.2]
        rw [hb2, if_pos rfl] at ho
        refine ⟨{ pp with stack := s :: rest, arcs := pp.arcs ++ [(s, t, some (gt.deprel t))] }, ?_⟩
        simp only [oracleStep, ho]
        rw [parse_step_right_cons pp (some (gt.deprel t)) t s rest hst]
      · have hb2 : (gt.head t == some s && depsAttached pp gt t) = false := by
          rcases Decidable.not_and_iff_or_not.mp hr with h1 | h1 <;> simp [h1]
        rw [hb2] at ho
        simp only [Bool.false_eq_true, if_false] at ho
        by_cases hlt : pp.next < pp.sentence.length
        · refine ⟨{ pp with stack := pp.next :: pp.stack, next := pp.next + 1 }, ?_⟩
          simp only [oracleStep, ho]
          rw [parse_step_shift, if_pos hlt]
        · exfalso
          -- the buffer is exhausted but no reduction applies: impossible
          have hnext : pp.next = n + 1 := by
            have h5 := inv.base.nextLe
            omega
          obtain ⟨f, hf0⟩ := wf.acyclic
          have hb : ∀ d h2, d ≤ n → gt.head d = some h2 → h2 ≤ n := by
            intro d h2 hd hh
            by_cases hd0 : d = 0
            · rw [hd0, wf.head0] at hh; simp at hh
            · obtain ⟨h', hh', hn'⟩ := wf.headSome d (by omega) hd
              rw [hh'] at hh
              have : h' = h2 := by injection hh
              omega
          have hSnodup : pp.stack.Nodup := hnd2.1
          have hSlen : 2 ≤ pp.stack.length := by rw [hst]; simp
          have hSn : ∀ x ∈ pp.stack, x ≤ n := by
            intro x hx
            have := hsub x hx
            omega
          have hstackcl : ∀ x ∈ pp.stack, x ≠ 0 →
              ∃ h2, gt.head x = some h2 ∧ h2 ∈ pp.stack := by
            intro x hx hx0
            obtain ⟨h2, hh2, hh2n⟩ := wf.headSome x (by omega) (hSn x hx)
            refine ⟨h2, hh2, ?_⟩
            have hh2range : h2 ∈ List.range pp.next := by
              rw [List.mem_range]; omega
            have hmem2 := inv.base.perm.mem_iff.mpr hh2range
            rcases List.mem_append.mp hmem2 with hmem | hmem
            · exact hmem
            · exfalso
              obtain ⟨a, ha, hae⟩ := List.mem_map.mp hmem
              have hxdeps : x ∈ gt.deps h2 := by
                apply wf.memDeps x h2 (by omega) (hSn x hx)
                exact hh2
              have hxatt : attachedB pp x = true := by
                have := inv.closure a ha x (by rw [hae]; exact hxdeps)
                exact this
              have hxmem : x ∈ arcDeps pp := (attachedB_iff_mem pp x).mp hxatt
              exact hnd2.2.2 hx hxmem
          have hleaf_iff : ∀ x ∈ pp.stack,
              (depsAttached pp gt x = true ↔
                ∀ e ∈ pp.stack, gt.head e ≠ some x) := by
            intro x hx
            constructor
            · intro hall e he hhead
              have he0 : e ≠ 0 := by
                intro h0
                rw [h0, wf.head0] at hhead
                simp at hhead
              have hedeps : e ∈ gt.deps x :=
                wf.memDeps e x (by omega) (hSn e he) hhead
              have heatt := List.all_eq_true.mp hall e hedeps
              have : e ∈ arcDeps pp := (attachedB_iff_mem pp e).mp heatt
              exact hnd2.2.2 he this
            · intro hnone
              simp only [depsAttached, List.all_eq_true]
              intro e he
              obtain ⟨he1, he2, hehead⟩ := wf.depsMem x e he
              have herange : e ∈ List.range pp.next := by
                rw [List.mem_range]; omega
              have hmem2 := inv.base.perm.mem_iff.mpr herange
              rcases List.mem_append.mp hmem2 with hmem | hmem
              · exact absurd hehead (hnone e hmem)
              · exact (attachedB_iff_mem pp e).mpr hmem
          obtain ⟨u, v, huS, hvS, huv, hadj, hdisj⟩ :=
            stuck_lemma gt n hb f hf0 hproj pp.stack.length pp.stack le_rfl
              hSnodup hSlen hSn 0 inv.base.rootMem
              (fun x _ => Nat.zero_le x) hstackcl
          by_cases hvt : v = t
          · have hus : u = s := by
              rw [hst] at huS
              rcases List.mem_cons.mp huS with he | hu2
              · omega
              rcases List.mem_cons.mp hu2 with he | hu3
              · exact he
              · exfalso
                have hul : u < s := hrest u hu3
                refine hadj s ?_ ⟨hul, by omega⟩
                rw [hst]
                simp
            rcases hdisj with ⟨hh, hlf⟩ | ⟨hh, hlf⟩
            · refine hr ⟨?_, ?_⟩
              · rw [← hvt, ← hus]; exact hh
              · refine (hleaf_iff t (by rw [hst]; simp)).mpr ?_
                rw [← hvt]
                exact hlf
            · refine hl ⟨?_, ?_⟩
              · rw [← hus, ← hvt]; exact hh
              · refine (hleaf_iff s (by rw [hst]; simp)).mpr ?_
                rw [← hus]
                exact hlf
          · have hcov := inv.covered u v huS hvS huv hadj
              (by rw [hst]; simp; omega)
            rcases hdisj with ⟨hh, hlf⟩ | ⟨hh, hlf⟩
            · exact hcov.1 ⟨hh, (hleaf_iff v hvS).mpr hlf⟩
            · exact hcov.2 ⟨hh, (hleaf_iff u huS).mpr hlf⟩

theorem parse_step_measure (pp pp2 : PartialParse) (t : Nat) (d : Option String)
    (h : parse_step pp t d = some pp2) :
    ppMeasure pp2 + 1 = ppMeasure pp ∧ pp2.sentence = pp.sentence := by
  rcases parse_step_some_cases pp pp2 t d h with
    ⟨_, tp, s2, r, hst, _, hpp⟩ | ⟨_, tp, s2, r, hst, hpp⟩ | ⟨_, hn, hpp⟩
  · subst hpp
    refine ⟨?_, rfl⟩
    simp only [ppMeasure]
    rw [hst]
    simp only [List.length_cons]
    omega
  · subst hpp
    refine ⟨?_, rfl⟩
    simp only [ppMeasure]
    rw [hst]
    simp only [List.length_cons]
    omega
  · subst hpp
    refine ⟨?_, rfl⟩
    simp only [ppMeasure]
    simp only [List.length_cons]
    omega

theorem measure_ge_two (pp : PartialParse) (inv : StInv pp)
    (hcf : complete pp = false) : 2 ≤ ppMeasure pp := by
  have h1 : 1 ≤ pp.stack.length := List.length_pos.mpr
    (List.ne_nil_of_mem inv.rootMem)
  have h2 := inv.nextLe
  by_cases hsl : pp.stack.length = 1
  · have h3 : pp.next ≠ pp.sentence.length := by
      intro he
      have h4 := (c5_complete_iff pp).mpr ⟨hsl, he⟩
      rw [h4] at hcf
      simp at hcf
    simp only [ppMeasure]
    omega
  · simp only [ppMeasure]
    omega

theorem oracle_run_complete (gt : GoldTree) (n : Nat) (wf : GoldWF gt n)
    (hproj : Projective gt) :
    ∀ (fuel : Nat) (pp : PartialParse), OInv gt pp →
      pp.sentence.length = n + 1 → ppMeasure pp ≤ fuel + 1 →
      ∃ pp2, oracle_run gt fuel pp = some pp2 ∧ OInv gt pp2 ∧
        complete pp2 = true ∧ pp2.sentence.length = n + 1 := by
  intro fuel
  induction fuel with
  | zero =>
    intro pp inv hlen hm
    rcases hc : complete pp with _ | _
    · exfalso
      have := measure_ge_two pp inv.base hc
      omega
    · exact ⟨pp, by simp [oracle_run, hc], inv, hc, hlen⟩
  | succ fuel ih =>
    intro pp inv hlen hm
    rcases hc : complete pp with _ | _
    · obtain ⟨pp2, hstep⟩ := oracle_progress gt n wf hproj pp inv hc hlen
      have inv2 := oinv_step gt n wf pp pp2 hstep inv
      obtain ⟨t0, d0, hps⟩ := oracleStep_parse_step gt pp pp2 hstep
      obtain ⟨hm2, hsent2⟩ := parse_step_measure pp pp2 t0 d0 hps
      have hlen2 : pp2.sentence.length = n + 1 := by rw [hsent2]; exact hlen
      obtain ⟨pp3, hrun, inv3, hc3, hlen3⟩ := ih pp2 inv2 hlen2 (by omega)
      refine ⟨pp3, ?_, inv3, hc3, hlen3⟩
      simp only [oracle_run, hc, Bool.false_eq_true, if_false, hstep]
      exact hrun
    · exact ⟨pp, by simp [oracle_run, hc], inv, hc, hlen⟩

/-- C2: for every well-formed projective gold tree over a sentence,
driving a fresh parse state with oracle transitions until completion (the
loop of `data.py`, with fuel `2 n` which always suffices) succeeds, and the
resulting arc list has exactly one arc per non-root token, containing
`(h, d, l)` exactly when `h` is the gold head and `l` the gold label of
token `d` — i.e. the arc set is exactly the gold arc set. -/
theorem c2_oracle_round_trip (s : List (Option String × String)) (gt : GoldTree)
    (wf : GoldWF gt s.length) (hproj : Projective gt) :
    ∃ pp, oracle_run gt (2 * s.length) (initPP s) = some pp ∧
      complete pp = true ∧
      pp.arcs.length = s.length ∧
      (∀ h d l, (h, d, l) ∈ pp.arcs ↔
        (1 ≤ d ∧ d ≤ s.length ∧ gt.head d = some h ∧ l = some (gt.deprel d))) := by
  have hlen : (initPP s).sentence.length = s.length + 1 := by simp [initPP]
  have hminit : ppMeasure (initPP s) = 2 * s.length + 1 := by
    simp [ppMeasure, initPP]
  obtain ⟨pp, hrun, inv, hc, hlen2⟩ :=
    oracle_run_complete gt s.length wf hproj (2 * s.length) (initPP s)
      (oinv_init gt s) hlen (by omega)
  have hnd : (pp.stack ++ arcDeps pp).Nodup :=
    inv.base.perm.nodup_iff.mpr (List.nodup_range _)
  have hnd2 := List.nodup_append.mp hnd
  rcases (c5_complete_iff pp).mp hc with ⟨hsl, hnext⟩
  have hnextval : pp.next = s.length + 1 := by rw [hnext, hlen2]
  have hstack : pp.stack = [0] := by
    rcases hstk : pp.stack with _ | ⟨a, _ | ⟨b, r⟩⟩
    · rw [hstk] at hsl; simp at hsl
    · have := inv.base.rootMem
      rw [hstk] at this
      simp at this
      rw [← this]
    · rw [hstk] at hsl; simp at hsl
  have hplen := inv.base.perm.length_eq
  have hdlen : (arcDeps pp).length = pp.arcs.length := by simp [arcDeps]
  have halen : pp.arcs.length = s.length := by
    rw [List.length_append, List.length_range] at hplen
    omega
  refine ⟨pp, hrun, hc, halen, fun h d l => ?_⟩
  constructor
  · intro hmem
    have hsound := inv.sound (h, d, l) hmem
    have hdepmem : d ∈ arcDeps pp := by
      simp only [arcDeps, List.mem_map]
      exact ⟨(h, d, l), hmem, rfl⟩
    have hdrange : d ∈ List.range pp.next :=
      inv.base.perm.mem_iff.mp (List.mem_append_right _ hdepmem)
    rw [List.mem_range] at hdrange
    have hd0 : d ≠ 0 := by
      intro he
      have : d ∈ pp.stack := by rw [hstack, he]; simp
      exact hnd2.2.2 this hdepmem
    exact ⟨by omega, by omega, hsound.1, hsound.2⟩
  · rintro ⟨hd1, hd2, hhead, hlab⟩
    have hdrange : d ∈ List.range pp.next := by
      rw [List.mem_range]; omega
    have hmem2 := inv.base.perm.mem_iff.mpr hdrange
    rcases List.mem_append.mp hmem2 with hmem | hmem
    · rw [hstack] at hmem
      simp at hmem
      omega
    · obtain ⟨a, ha, hae⟩ := List.mem_map.mp hmem
      have hsound := inv.sound a ha
      rcases a with ⟨h', d', l'⟩
      simp only at hae
      subst hae
      have hh' : h' = h := by
        have h9 := hsound.1
        rw [hhead] at h9
        injection h9 with he
        exact he.symm
      have hl' : l' = l := by
        have := hsound.2
        rw [hlab]
        exact this
      rw [← hh', ← hl']
      exact ha

theorem gtEx_anc_char (a x : Nat) :
    IsAnc gtEx a x ↔ (a = x ∨ (a = 1 ∧ x = 0) ∨ (a = 3 ∧ (x = 1 ∨ x = 0)) ∨
      (a = 2 ∧ (x = 3 ∨ x = 1 ∨ x = 0))) := by
  constructor
  · intro h
    induction h with
    | refl => left; rfl
    | @step a' h' y' hh _ ih =>
      have hcase : (a' = 1 ∧ h' = 0) ∨ (a' = 2 ∧ h' = 3) ∨ (a' = 3 ∧ h' = 1) := by
        simp only [gtEx] at hh
        split_ifs at hh with h1 h2 h3
        · exact Or.inl ⟨h1, by injection hh with he; omega⟩
        · exact Or.inr (Or.inl ⟨h2, by injection hh with he; omega⟩)
        · exact Or.inr (Or.inr ⟨h3, by injection hh with he; omega⟩)
      omega
  · intro h
    have s10 : IsAnc gtEx 1 0 := IsAnc.step (by decide) (IsAnc.refl 0)
    have s31 : IsAnc gtEx 3 1 := IsAnc.step (by decide) (IsAnc.refl 1)
    have s30 : IsAnc gtEx 3 0 := IsAnc.step (by decide) s10
    have s23 : IsAnc gtEx 2 3 := IsAnc.step (by decide) (IsAnc.refl 3)
    have s21 : IsAnc gtEx 2 1 := IsAnc.step (by decide) s31
    have s20 : IsAnc gtEx 2 0 := IsAnc.step (by decide) s30
    rcases h with he | ⟨h1, h2⟩ | ⟨h1, h2 | h2⟩ | ⟨h1, h2 | h2 | h2⟩ <;>
      subst_vars <;> first | exact IsAnc.refl _ | assumption

theorem gtEx_proj : Projective gtEx := by
  intro x a b c hab hbc ha hc
  rw [gtEx_anc_char] at ha hc ⊢
  omega

theorem gtEx_wf : GoldWF gtEx 3 := by
  refine ⟨rfl, ?_, ?_, ?_, ?_⟩
  · intro d h1 h2
    interval_cases d <;> decide
  · intro i d hd
    simp only [gtEx] at hd
    split_ifs at hd with h1 h2 h3 <;> simp at hd <;> subst_vars <;> decide
  · intro d h h1 h2 hh
    interval_cases d <;>
      (first
        | (have he : h = 0 := by simpa [gtEx] using hh.symm
           subst he; decide)
        | (have he : h = 3 := by simpa [gtEx] using hh.symm
           subst he; decide)
        | (have he : h = 1 := by simpa [gtEx] using hh.symm
           subst he; decide))
  · refine ⟨fun x => if x = 0 then 0 else if x = 1 then 1 else if x = 3 then 2 else 3, ?_⟩
    intro d h hd hh
    interval_cases d <;> simp only [gtEx] at hh <;>
      (try simp at hh) <;> subst_vars <;> decide

/-- Witness for C2: the example sentence with its gold tree; the
oracle-driven parse completes and produces exactly the gold arcs
`(0,1,root)`, `(3,2,det)`, `(1,3,obj)`. -/
theorem c2_oracle_round_trip_witness :
    ∃ pp, oracle_run gtEx (2 * sEx.length) (initPP sEx) = some pp ∧
      complete pp = true ∧ pp.arcs.length = 3 ∧
      (0, 1, some "root") ∈ pp.arcs ∧ (3, 2, some "det") ∈ pp.arcs ∧
      (1, 3, some "obj") ∈ pp.arcs := by
  obtain ⟨pp, h1, h2, h3, h4⟩ := c2_oracle_round_trip sEx gtEx gtEx_wf gtEx_proj
  refine ⟨pp, h1, h2, by rw [h3]; rfl, ?_, ?_, ?_⟩
  · exact (h4 0 1 (some "root")).mpr ⟨by decide, by decide, by decide, by decide⟩
  · exact (h4 3 2 (some "det")).mpr ⟨by decide, by decide, by decide, by decide⟩
  · exact (h4 1 3 (some "obj")).mpr ⟨by decide, by decide, by decide, by decide⟩

/-! ### C7: the batch parsing driver -/

theorem lookup_none_of_not_mem (l : List (Nat × PartialParse)) (j : Nat)
    (h : j ∉ l.map Prod.fst) : l.lookup j = none := by
  induction l with
  | nil => rfl
  | cons x l ih =>
    simp only [List.map_cons, List.mem_cons] at h
    push_neg at h
    rw [List.lookup_cons]
    have hb : (j == x.1) = false := by
      simp
      exact h.1
    rw [hb]
    exact ih h.2

theorem lookup_some_mem (l : List (Nat × PartialParse)) (j : Nat)
    (p : PartialParse) (h : l.lookup j = some p) : (j, p) ∈ l := by
  induction l with
  | nil => simp [List.lookup] at h
  | cons x l ih =>
    rw [List.lookup_cons] at h
    rcases hb : (j == x.1) with _ | _
    · rw [hb] at h
      exact List.mem_cons_of_mem _ (ih h)
    · rw [hb] at h
      simp only [Option.some_inj] at h
      have hj : j = x.1 := by simpa using hb
      have he : (j, p) = x := by rw [hj, ← h]
      rw [he]
      exact List.mem_cons_self _ _

theorem lookup_append (l1 l2 : List (Nat × PartialParse)) (j : Nat) :
    (l1 ++ l2).lookup j =
      match l1.lookup j with
      | some x => some x
      | none => l2.lookup j := by
  induction l1 with
  | nil => simp [List.lookup]
  | cons x l ih =>
    rw [List.cons_append, List.lookup_cons, List.lookup_cons]
    rcases hb : (j == x.1) with _ | _
    · exact ih
    · rfl

theorem lookup_enumFrom (l : List PartialParse) :
    ∀ k j, (List.enumFrom k l).lookup j =
      if j < k then none else l.get? (j - k) := by
  induction l with
  | nil =>
    intro k j
    simp [List.lookup]
  | cons x l ih =>
    intro k j
    simp only [List.enumFrom, List.lookup_cons]
    rcases hb : (j == k) with _ | _
    · have hjk : j ≠ k := by simpa using hb
      rw [ih (k + 1) j]
      by_cases h1 : j < k
      · rw [if_pos (by omega), if_pos h1]
      · rw [if_neg (by omega), if_neg h1]
        have h2 : j - k = (j - (k + 1)) + 1 := by omega
        rw [h2]
        rfl
    · have hjk : j = k := by simpa using hb
      rw [if_neg (by omega), hjk]
      simp

theorem lookup_enum (l : List PartialParse) (j : Nat) :
    l.enum.lookup j = l.get? j := by
  rw [List.enum, lookup_enumFrom l 0 j, if_neg (by omega)]
  simp

theorem totalM_append (l1 l2 : List (Nat × PartialParse)) :
    totalM (l1 ++ l2) = totalM l1 + totalM l2 := by
  simp [totalM]

theorem parse_step_measure_zero (pp : PartialParse) (t : Nat) (d : Option String)
    (hm : ppMeasure pp = 0) : parse_step pp t d = none := by
  have hstack : pp.stack = [] := by
    simp only [ppMeasure] at hm
    have : pp.stack.length = 0 := by omega
    exact List.eq_nil_of_length_eq_zero this
  have hnext : ¬ pp.next < pp.sentence.length := by
    simp only [ppMeasure] at hm
    omega
  by_cases h0 : t = left_arc_id
  · subst h0; simp [parse_step, hstack, left_arc_id]
  · by_cases h1 : t = right_arc_id
    · subst h1; simp [parse_step, hstack, left_arc_id, right_arc_id]
    · by_cases h2 : t = shift_id
      · subst h2
        rw [parse_step_shift, if_neg hnext]
      · simp [parse_step, h0, h1, h2]

theorem singleRunF_add (f : PartialParse → Nat × Option String) :
    ∀ (fuel k : Nat) (pp : PartialParse), ppMeasure pp ≤ fuel →
      singleRunF f (fuel + k) pp = singleRunF f fuel pp := by
  intro fuel
  induction fuel with
  | zero =>
    intro k pp hm
    rcases k with _ | k
    · rfl
    · have hm0 : ppMeasure pp = 0 := by omega
      have hz : (0 : Nat) + (k + 1) = k + 1 := by omega
      rw [hz]
      show singleRunF f (k + 1) pp = pp.arcs
      rcases hc : complete pp with _ | _
      · simp only [singleRunF, hc, Bool.false_eq_true, if_false]
        rw [parse_step_measure_zero pp _ _ hm0]
      · simp [singleRunF, hc]
  | succ fuel ih =>
    intro k pp hm
    have hsucc : fuel + 1 + k = (fuel + k) + 1 := by omega
    rw [hsucc]
    show (if complete pp then pp.arcs
      else match parse_step pp (f pp).1 (f pp).2 with
        | none => pp.arcs
        | some pp2 => singleRunF f (fuel + k) pp2) =
      (if complete pp then pp.arcs
      else match parse_step pp (f pp).1 (f pp).2 with
        | none => pp.arcs
        | some pp2 => singleRunF f fuel pp2)
    rcases hc : complete pp with _ | _
    · simp only [Bool.false_eq_true, if_false]
      rcases hps : parse_step pp (f pp).1 (f pp).2 with _ | pp2
      · rfl
      · obtain ⟨hm2, _⟩ := parse_step_measure pp pp2 _ _ hps
        exact ih k pp2 (by omega)
    · simp

theorem singleRunF_eq_singleRun (f : PartialParse → Nat × Option String)
    (fuel : Nat) (pp : PartialParse) (hm : ppMeasure pp ≤ fuel) :
    singleRunF f fuel pp = singleRun f pp := by
  have h1 : fuel = ppMeasure pp + (fuel - ppMeasure pp) := by omega
  rw [h1, singleRunF_add f (ppMeasure pp) (fuel - ppMeasure pp) pp le_rfl]
  rfl

theorem singleRun_complete (f : PartialParse → Nat × Option String)
    (pp : PartialParse) (hc : complete pp = true) : singleRun f pp = pp.arcs := by
  rcases h : ppMeasure pp with _ | k <;>
    simp [singleRun, h, singleRunF, hc]

theorem singleRun_fail (f : PartialParse → Nat × Option String)
    (pp : PartialParse) (hc : complete pp = false)
    (hps : parse_step pp (f pp).1 (f pp).2 = none) : singleRun f pp = pp.arcs := by
  rcases h : ppMeasure pp with _ | k <;>
    simp [singleRun, h, singleRunF, hc, hps]

theorem singleRun_step (f : PartialParse → Nat × Option String)
    (pp pp2 : PartialParse) (hc : complete pp = false)
    (hps : parse_step pp (f pp).1 (f pp).2 = some pp2) :
    singleRun f pp = singleRun f pp2 := by
  obtain ⟨hm2, _⟩ := parse_step_measure pp pp2 _ _ hps
  have h1 : singleRun f pp = singleRunF f (ppMeasure pp) pp := rfl
  rw [h1, show ppMeasure pp = ppMeasure pp2 + 1 by omega]
  simp only [singleRunF, hc, Bool.false_eq_true, if_false, hps]
  rfl

theorem stepPool_spec (f : PartialParse → Nat × Option String) :
    ∀ (pool : List (Nat × PartialParse)) (results : List (Option (List Arc))),
      (pool.map Prod.fst).Nodup →
      (∀ i, i ∈ pool.map Prod.fst → i < results.length) →
      ((stepPool pool (pool.map (fun e => f e.2)) results).1.map Prod.fst).Sublist
        (pool.map Prod.fst) ∧
      (stepPool pool (pool.map (fun e => f e.2)) results).2.length = results.length ∧
      totalM (stepPool pool (pool.map (fun e => f e.2)) results).1 + pool.length ≤
        totalM pool ∧
      (∀ j, (match pool.lookup j with
        | none =>
          (stepPool pool (pool.map (fun e => f e.2)) results).1.lookup j = none ∧
          (stepPool pool (pool.map (fun e => f e.2)) results).2.get? j = results.get? j
        | some p =>
          (∃ q, (stepPool pool (pool.map (fun e => f e.2)) results).1.lookup j = some q ∧
            singleRun f q = singleRun f p ∧
            (stepPool pool (pool.map (fun e => f e.2)) results).2.get? j =
              results.get? j) ∨
          ((stepPool pool (pool.map (fun e => f e.2)) results).1.lookup j = none ∧
            (stepPool pool (pool.map (fun e => f e.2)) results).2.get? j =
              some (some (singleRun f p))))) := by
  intro pool
  induction pool with
  | nil =>
    intro results hnd hbound
    refine ⟨by simp [stepPool], by simp [stepPool], by simp [stepPool, totalM], ?_⟩
    intro j
    simp [List.lookup, stepPool]
  | cons e pool ih =>
    intro results hnd hbound
    rcases e with ⟨i, pp⟩
    have hi_lt : i < results.length := hbound i (by simp)
    have hi_notin : i ∉ pool.map Prod.fst := by
      simp only [List.map_cons, List.nodup_cons] at hnd
      exact hnd.1
    have hnd2 : (pool.map Prod.fst).Nodup := by
      simp only [List.map_cons, List.nodup_cons] at hnd
      exact hnd.2
    have hpool_i : pool.lookup i = none := lookup_none_of_not_mem pool i hi_notin
    rcases hfp : f pp with ⟨t, d⟩
    simp only [List.map_cons]
    rw [hfp]
    simp only [stepPool]
    rcases hc : complete pp with _ | _
    · -- not complete: try the proposed transition
      simp only [Bool.false_eq_true, if_false]
      rcases hps : parse_step pp t d with _ | pp2
      · -- illegal proposal: drop the state, record its arcs
        have hrunpp : singleRun f pp = pp.arcs := by
          apply singleRun_fail f pp hc
          rw [hfp]
          exact hps
        have hbound2 : ∀ i2, i2 ∈ pool.map Prod.fst →
            i2 < (results.set i (some pp.arcs)).length := by
          intro i2 hmem
          rw [List.length_set]
          exact hbound i2 (by simp [hmem])
        obtain ⟨ihsub, ihlen, ihtot, ihj⟩ := ih (results.set i (some pp.arcs)) hnd2 hbound2
        refine ⟨ihsub.cons i, by rw [ihlen, List.length_set], by
          simp only [totalM, List.map_cons, List.sum_cons, List.length_cons]
          simp only [totalM] at ihtot
          omega, ?_⟩
        intro j
        by_cases hji : j = i
        · subst hji
          rw [List.lookup_cons]
          simp only [beq_self_eq_true]
          have hj2 := ihj j
          rw [hpool_i] at hj2
          refine Or.inr ⟨hj2.1, ?_⟩
          rw [hj2.2, List.get?_eq_getElem?,
            List.getElem?_set_eq_of_lt (some pp.arcs) hi_lt, hrunpp]
        · rw [List.lookup_cons]
          have hb : (j == i) = false := by simp [hji]
          rw [hb]
          have hj2 := ihj j
          rcases hlk : pool.lookup j with _ | p
          · rw [hlk] at hj2
            refine ⟨hj2.1, ?_⟩
            rw [hj2.2, List.get?_eq_getElem?, List.get?_eq_getElem?,
              List.getElem?_set_ne (fun he => hji he.symm)]
          · rw [hlk] at hj2
            rcases hj2 with ⟨q, hq1, hq2, hq3⟩ | ⟨h1, h2⟩
            · refine Or.inl ⟨q, hq1, hq2, ?_⟩
              rw [hq3, List.get?_eq_getElem?, List.get?_eq_getElem?,
                List.getElem?_set_ne (fun he => hji he.symm)]
            · exact Or.inr ⟨h1, h2⟩
      · dsimp only
        by_cases hc2 : complete pp2 = true
        · -- the state advanced to completion: retire it
          rw [if_pos hc2]
          have hrunpp : singleRun f pp = pp2.arcs := by
            have h1 : singleRun f pp = singleRun f pp2 := by
              apply singleRun_step f pp pp2 hc
              rw [hfp]
              exact hps
            rw [h1]
            exact singleRun_complete f pp2 hc2
          have hbound2 : ∀ i2, i2 ∈ pool.map Prod.fst →
              i2 < (results.set i (some pp2.arcs)).length := by
            intro i2 hmem
            rw [List.length_set]
            exact hbound i2 (by simp [hmem])
          obtain ⟨ihsub, ihlen, ihtot, ihj⟩ :=
            ih (results.set i (some pp2.arcs)) hnd2 hbound2
          refine ⟨ihsub.cons i, by rw [ihlen, List.length_set], by
            simp only [totalM, List.map_cons, List.sum_cons, List.length_cons]
            simp only [totalM] at ihtot
            omega, ?_⟩
          intro j
          by_cases hji : j = i
          · subst hji
            rw [List.lookup_cons]
            simp only [beq_self_eq_true]
            have hj2 := ihj j
            rw [hpool_i] at hj2
            refine Or.inr ⟨hj2.1, ?_⟩
            rw [hj2.2, List.get?_eq_getElem?,
              List.getElem?_set_eq_of_lt (some pp2.arcs) hi_lt, hrunpp]
          · rw [List.lookup_cons]
            have hb : (j == i) = false := by simp [hji]
            rw [hb]
            have hj2 := ihj j
            rcases hlk : pool.lookup j with _ | p
            · rw [hlk] at hj2
              refine ⟨hj2.1, ?_⟩
              rw [hj2.2, List.get?_eq_getElem?, List.get?_eq_getElem?,
                List.getElem?_set_ne (fun he => hji he.symm)]
            · rw [hlk] at hj2
              rcases hj2 with ⟨q, hq1, hq2, hq3⟩ | ⟨h1, h2⟩
              · refine Or.inl ⟨q, hq1, hq2, ?_⟩
                rw [hq3, List.get?_eq_getElem?, List.get?_eq_getElem?,
                  List.getElem?_set_ne (fun he => hji he.symm)]
              · exact Or.inr ⟨h1, h2⟩
        · -- the state advanced and stays in the pool
          have hc2f : complete pp2 = false := by
            revert hc2
            cases complete pp2 <;> simp
          rw [if_neg hc2]
          have hrunpp : singleRun f pp = singleRun f pp2 := by
            apply singleRun_step f pp pp2 hc
            rw [hfp]
            exact hps
          have hbound3 : ∀ i2, i2 ∈ pool.map Prod.fst → i2 < results.length := by
            intro i2 hmem
            exact hbound i2 (by simp [hmem])
          obtain ⟨ihsub, ihlen, ihtot, ihj⟩ := ih results hnd2 hbound3
          obtain ⟨hm2, _⟩ := parse_step_measure pp pp2 t d hps
          refine ⟨?_, ?_, ?_, ?_⟩
          · simp only [List.map_cons]
            exact ihsub.cons₂ i
          · exact ihlen
          · simp only [totalM, List.map_cons, List.sum_cons, List.length_cons]
            simp only [totalM] at ihtot
            omega
          · intro j
            by_cases hji : j = i
            · subst hji
              rw [List.lookup_cons, List.lookup_cons]
              simp only [beq_self_eq_true]
              have hj2 := ihj j
              rw [hpool_i] at hj2
              exact Or.inl ⟨pp2, rfl, hrunpp.symm, hj2.2⟩
            · rw [List.lookup_cons, List.lookup_cons]
              have hb : (j == i) = false := by simp [hji]
              rw [hb]
              exact ihj j
    · -- already complete: retire with its arcs
      simp only [if_true]
      have hrunpp : singleRun f pp = pp.arcs := singleRun_complete f pp hc
      have hbound2 : ∀ i2, i2 ∈ pool.map Prod.fst →
          i2 < (results.set i (some pp.arcs)).length := by
        intro i2 hmem
        rw [List.length_set]
        exact hbound i2 (by simp [hmem])
      obtain ⟨ihsub, ihlen, ihtot, ihj⟩ := ih (results.set i (some pp.arcs)) hnd2 hbound2
      refine ⟨ihsub.cons i, by rw [ihlen, List.length_set], by
        simp only [totalM, List.map_cons, List.sum_cons, List.length_cons]
        simp only [totalM] at ihtot
        omega, ?_⟩
      intro j
      by_cases hji : j = i
      · subst hji
        rw [List.lookup_cons]
        simp only [beq_self_eq_true]
        have hj2 := ihj j
        rw [hpool_i] at hj2
        refine Or.inr ⟨hj2.1, ?_⟩
        rw [hj2.2, List.get?_eq_getElem?,
          List.getElem?_set_eq_of_lt (some pp.arcs) hi_lt, hrunpp]
      · rw [List.lookup_cons]
        have hb : (j == i) = false := by simp [hji]
        rw [hb]
        have hj2 := ihj j
        rcases hlk : pool.lookup j with _ | p
        · rw [hlk] at hj2
          refine ⟨hj2.1, ?_⟩
          rw [hj2.2, List.get?_eq_getElem?, List.get?_eq_getElem?,
            List.getElem?_set_ne (fun he => hji he.symm)]
        · rw [hlk] at hj2
          rcases hj2 with ⟨q, hq1, hq2, hq3⟩ | ⟨h1, h2⟩
          · refine Or.inl ⟨q, hq1, hq2, ?_⟩
            rw [hq3, List.get?_eq_getElem?, List.get?_eq_getElem?,
              List.getElem?_set_ne (fun he => hji he.symm)]
          · exact Or.inr ⟨h1, h2⟩

theorem mbLoop_spec (f : PartialParse → Nat × Option String) (bs : Nat)
    (hbs : 1 ≤ bs) :
    ∀ (fuel : Nat) (queue pool : List (Nat × PartialParse))
      (results : List (Option (List Arc))),
      ((pool ++ queue).map Prod.fst).Nodup →
      (∀ i, i ∈ (pool ++ queue).map Prod.fst → i < results.length) →
      totalM pool + totalM queue + 1 ≤ fuel →
      (mbLoop (fun pps => pps.map f) bs fuel queue pool results).length =
        results.length ∧
      ∀ j,
        ((pool ++ queue).lookup j = none →
          (mbLoop (fun pps => pps.map f) bs fuel queue pool results).get? j =
            results.get? j) ∧
        (∀ p, (pool ++ queue).lookup j = some p →
          (mbLoop (fun pps => pps.map f) bs fuel queue pool results).get? j =
            some (some (singleRun f p))) := by
  intro fuel
  induction fuel with
  | zero =>
    intro queue pool results _ _ hfuel
    exact absurd hfuel (by omega)
  | succ fuel ih =>
    intro queue pool results hnd hbound hfuel
    by_cases hpe : pool = [] ∧ queue = []
    · obtain ⟨hp, hq⟩ := hpe
      subst hp
      subst hq
      have hterm : mbLoop (fun pps => pps.map f) bs (fuel + 1) [] [] results =
          results := by
        simp [mbLoop]
      rw [hterm]
      refine ⟨rfl, ?_⟩
      intro j
      constructor
      · intro _
        rfl
      · intro p hp2
        simp [List.lookup] at hp2
    · have hguard : (pool.isEmpty && queue.isEmpty) = false := by
        rcases pool with _ | ⟨x, pool⟩
        · rcases queue with _ | ⟨y, queue⟩
          · exact absurd ⟨rfl, rfl⟩ hpe
          · rfl
        · rfl
      have hp2ne : pool ++ queue.take (bs - pool.length) ≠ [] := by
        rcases pool with _ | ⟨x, pool⟩
        · rcases queue with _ | ⟨y, queue⟩
          · exact absurd ⟨rfl, rfl⟩ hpe
          · simp only [List.nil_append]
            rcases bs with _ | bs
            · omega
            · simp [List.take]
        · simp
      have hp2e : (pool ++ queue.take (bs - pool.length)).isEmpty = false := by
        rcases h : pool ++ queue.take (bs - pool.length) with _ | ⟨z, l⟩
        · exact absurd h hp2ne
        · rfl
      have hunfold : mbLoop (fun pps => pps.map f) bs (fuel + 1) queue pool results =
          mbLoop (fun pps => pps.map f) bs fuel
            (queue.drop (bs - pool.length))
            (stepPool (pool ++ queue.take (bs - pool.length))
              ((pool ++ queue.take (bs - pool.length)).map (fun e => f e.2))
              results).1
            (stepPool (pool ++ queue.take (bs - pool.length))
              ((pool ++ queue.take (bs - pool.length)).map (fun e => f e.2))
              results).2 := by
        simp only [mbLoop]
        rw [hguard]
        simp only [Bool.false_eq_true, if_false]
        rw [hp2e]
        simp only [Bool.false_eq_true, if_false]
        rw [List.map_map]
        rfl
      rw [hunfold]
      have hpq : (pool ++ queue.take (bs - pool.length)) ++
          queue.drop (bs - pool.length) = pool ++ queue := by
        rw [List.append_assoc, List.take_append_drop]
      have hsub2 : List.Sublist (pool ++ queue.take (bs - pool.length))
          (pool ++ queue) :=
        (List.take_sublist _ queue).append_left pool
      have hnd2 : ((pool ++ queue.take (bs - pool.length)).map Prod.fst).Nodup :=
        List.Nodup.sublist (hsub2.map Prod.fst) hnd
      have hbound2 : ∀ i,
          i ∈ (pool ++ queue.take (bs - pool.length)).map Prod.fst →
          i < results.length := by
        intro i hi
        exact hbound i ((hsub2.map Prod.fst).subset hi)
      obtain ⟨hsub, hlen, htot, hjq⟩ :=
        stepPool_spec f (pool ++ queue.take (bs - pool.length)) results hnd2 hbound2
      have hndPQ : (((pool ++ queue.take (bs - pool.length)) ++
          queue.drop (bs - pool.length)).map Prod.fst).Nodup := by
        rw [hpq]
        exact hnd
      have hnd3 : (((stepPool (pool ++ queue.take (bs - pool.length))
          ((pool ++ queue.take (bs - pool.length)).map (fun e => f e.2))
          results).1 ++ queue.drop (bs - pool.length)).map Prod.fst).Nodup := by
        have h5 := List.Sublist.append_right hsub
          ((queue.drop (bs - pool.length)).map Prod.fst)
        rw [← List.map_append, ← List.map_append] at h5
        exact List.Nodup.sublist h5 hndPQ
      have hbound3 : ∀ i,
          i ∈ ((stepPool (pool ++ queue.take (bs - pool.length))
            ((pool ++ queue.take (bs - pool.length)).map (fun e => f e.2))
            results).1 ++ queue.drop (bs - pool.length)).map Prod.fst →
          i < (stepPool (pool ++ queue.take (bs - pool.length))
            ((pool ++ queue.take (bs - pool.length)).map (fun e => f e.2))
            results).2.length := by
        intro i hi
        rw [hlen]
        rw [List.map_append] at hi
        rcases List.mem_append.mp hi with h1 | h1
        · exact hbound2 i (hsub.subset h1)
        · apply hbound i
          have h2 : i ∈ ((pool ++ queue.take (bs - pool.length)) ++
              queue.drop (bs - pool.length)).map Prod.fst := by
            rw [List.map_append]
            exact List.mem_append.mpr (Or.inr h1)
          rw [hpq] at h2
          exact h2
      have hfuel3 : totalM (stepPool (pool ++ queue.take (bs - pool.length))
            ((pool ++ queue.take (bs - pool.length)).map (fun e => f e.2))
            results).1 + totalM (queue.drop (bs - pool.length)) + 1 ≤ fuel := by
        have h1 : totalM (pool ++ queue.take (bs - pool.length)) +
            totalM (queue.drop (bs - pool.length)) =
            totalM pool + totalM queue := by
          rw [← totalM_append, hpq, totalM_append]
        have h2 : 1 ≤ (pool ++ queue.take (bs - pool.length)).length := by
          rcases h : pool ++ queue.take (bs - pool.length) with _ | ⟨z, l⟩
          · exact absurd h hp2ne
          · simp
        omega
      obtain ⟨ihlen, ihj⟩ := ih (queue.drop (bs - pool.length))
        (stepPool (pool ++ queue.take (bs - pool.length))
          ((pool ++ queue.take (bs - pool.length)).map (fun e => f e.2))
          results).1
        (stepPool (pool ++ queue.take (bs - pool.length))
          ((pool ++ queue.take (bs - pool.length)).map (fun e => f e.2))
          results).2
        hnd3 hbound3 hfuel3
      refine ⟨by rw [ihlen, hlen], ?_⟩
      intro j
      constructor
      · intro hnone
        have hnone2 : ((pool ++ queue.take (bs - pool.length)) ++
            queue.drop (bs - pool.length)).lookup j = none := by
          rw [hpq]
          exact hnone
        have hPn : (pool ++ queue.take (bs - pool.length)).lookup j = none := by
          rcases h : (pool ++ queue.take (bs - pool.length)).lookup j with _ | p
          · rfl
          · rw [lookup_append, h] at hnone2
            exact Option.noConfusion hnone2
        have hDn : (queue.drop (bs - pool.length)).lookup j = none := by
          have h3 := hnone2
          rw [lookup_append, hPn] at h3
          exact h3
        have hjq2 : (stepPool (pool ++ queue.take (bs - pool.length))
            ((pool ++ queue.take (bs - pool.length)).map (fun e => f e.2))
            results).1.lookup j = none ∧
            (stepPool (pool ++ queue.take (bs - pool.length))
            ((pool ++ queue.take (bs - pool.length)).map (fun e => f e.2))
            results).2.get? j = results.get? j := by
          have h0 := hjq j
          rw [hPn] at h0
          exact h0
        have hkd : ((stepPool (pool ++ queue.take (bs - pool.length))
            ((pool ++ queue.take (bs - pool.length)).map (fun e => f e.2))
            results).1 ++ queue.drop (bs - pool.length)).lookup j = none := by
          rw [lookup_append, hjq2.1]
          exact hDn
        have h4 := (ihj j).1 hkd
        rw [h4, hjq2.2]
      · intro p hsome
        have hsome2 : ((pool ++ queue.take (bs - pool.length)) ++
            queue.drop (bs - pool.length)).lookup j = some p := by
          rw [hpq]
          exact hsome
        rcases hP : (pool ++ queue.take (bs - pool.length)).lookup j with _ | p2
        · have hD : (queue.drop (bs - pool.length)).lookup j = some p := by
            have h3 := hsome2
            rw [lookup_append, hP] at h3
            exact h3
          have hjq2 : (stepPool (pool ++ queue.take (bs - pool.length))
              ((pool ++ queue.take (bs - pool.length)).map (fun e => f e.2))
              results).1.lookup j = none ∧
              (stepPool (pool ++ queue.take (bs - pool.length))
              ((pool ++ queue.take (bs - pool.length)).map (fun e => f e.2))
              results).2.get? j = results.get? j := by
            have h0 := hjq j
            rw [hP] at h0
            exact h0
          have hkd : ((stepPool (pool ++ queue.take (bs - pool.length))
              ((pool ++ queue.take (bs - pool.length)).map (fun e => f e.2))
              results).1 ++ queue.drop (bs - pool.length)).lookup j = some p := by
            rw [lookup_append, hjq2.1]
            exact hD
          exact (ihj j).2 p hkd
        · have hp2p : p2 = p := by
            have h3 := hsome2
            rw [lookup_append, hP] at h3
            have h4 : some p2 = some p := h3
            injection h4 with h5
          subst hp2p
          have hjP : j ∈ (pool ++ queue.take (bs - pool.length)).map Prod.fst := by
            have hm := lookup_some_mem _ j p2 hP
            exact List.mem_map.mpr ⟨(j, p2), hm, rfl⟩
          have hjD : j ∉ (queue.drop (bs - pool.length)).map Prod.fst := by
            intro hin
            have hnd4 := hndPQ
            rw [List.map_append] at hnd4
            exact (List.nodup_append.mp hnd4).2.2 hjP hin
          have hDn : (queue.drop (bs - pool.length)).lookup j = none :=
            lookup_none_of_not_mem _ j hjD
          have h0 := hjq j
          rw [hP] at h0
          rcases h0 with ⟨q, hq1, hq2, _⟩ | ⟨h1, h2⟩
          · have hkd : ((stepPool (pool ++ queue.take (bs - pool.length))
                ((pool ++ queue.take (bs - pool.length)).map (fun e => f e.2))
                results).1 ++ queue.drop (bs - pool.length)).lookup j = some q := by
              rw [lookup_append, hq1]
            have h4 := (ihj j).2 q hkd
            rw [h4, hq2]
          · have hkd : ((stepPool (pool ++ queue.take (bs - pool.length))
                ((pool ++ queue.take (bs - pool.length)).map (fun e => f e.2))
                results).1 ++ queue.drop (bs - pool.length)).lookup j = none := by
              rw [lookup_append, h1]
              exact hDn
            have h4 := (ihj j).1 hkd
            rw [h4, h2]

/-- C7: for every list of sentences, every pointwise predictor (the model
proposes one `(transition, deprel)` per state, depending on that state alone)
and every positive batch size, `minibatch_parse` returns one arcs list per
input sentence in input order; a state whose proposed transition fails to
apply is removed from the pool alone, its result being the arcs accumulated
up to that point, while every other sentence is parsed to completion.  Both
behaviours are captured at once: each sentence's entry equals the outcome of
driving that sentence by itself with the same predictor (`singleRun`, which
steps until the state is complete or an illegal proposal freezes it with its
partial arcs). -/
theorem c7_minibatch (f : PartialParse → Nat × Option String)
    (sentences : List (List (Option String × String))) (bs : Nat)
    (hbs : 1 ≤ bs) :
    minibatch_parse sentences (fun pps => pps.map f) bs =
      sentences.map (fun s => singleRun f (initPP s)) := by
  have hq : ((([] : List (Nat × PartialParse)) ++
      (sentences.map initPP).enum).map Prod.fst) =
      List.range sentences.length := by
    rw [List.nil_append, List.enum_map_fst, List.length_map]
  obtain ⟨hlen, hj⟩ := mbLoop_spec f bs hbs
    (totalM (sentences.map initPP).enum + 1)
    (sentences.map initPP).enum []
    (List.replicate sentences.length (none : Option (List Arc)))
    (by rw [hq]; exact List.nodup_range _)
    (by
      intro i hi
      rw [hq] at hi
      rw [List.length_replicate]
      exact List.mem_range.mp hi)
    (by simp [totalM])
  show (mbLoop (fun pps => pps.map f) bs (totalM (sentences.map initPP).enum + 1)
      (sentences.map initPP).enum []
      (List.replicate sentences.length none)).map (fun o => o.getD []) =
    sentences.map (fun s => singleRun f (initPP s))
  apply List.ext
  intro j
  rw [List.get?_map, List.get?_map]
  have hlk : (([] : List (Nat × PartialParse)) ++
      (sentences.map initPP).enum).lookup j = (sentences.map initPP).get? j := by
    rw [List.nil_append, lookup_enum]
  rcases hs : sentences.get? j with _ | s
  · have h1 : (sentences.map initPP).get? j = none := by
      rw [List.get?_map, hs]
      rfl
    have h2 := (hj j).1 (by rw [hlk, h1])
    rw [h2]
    have h3 : (List.replicate sentences.length (none : Option (List Arc))).get? j =
        none := by
      rw [List.get?_eq_none]
      rw [List.length_replicate]
      exact List.get?_eq_none.mp hs
    rw [h3]
    rfl
  · have h1 : (sentences.map initPP).get? j = some (initPP s) := by
      rw [List.get?_map, hs]
      rfl
    have h2 := (hj j).2 (initPP s) (by rw [hlk, h1])
    rw [h2]
    rfl

theorem c7_minibatch_witness :
    1 ≤ 2 ∧
    minibatch_parse sentsC7 (fun pps => pps.map predC7) 2 =
      sentsC7.map (fun s => singleRun predC7 (initPP s)) ∧
    sentsC7.map (fun s => singleRun predC7 (initPP s)) =
      [[(0, 1, some "r")], [(1, 2, some "r")],
        [(1, 2, some "r"), (0, 1, some "r")]] :=
  ⟨by decide, c7_minibatch predC7 sentsC7 2 (by decide), by rfl⟩

theorem map_filter_comm {α β : Type} (f : α → β) (p : β → Bool) (l : List α) :
    (l.filter (fun a => p (f a))).map f = (l.map f).filter p := by
  induction l with
  | nil => rfl
  | cons x l ih =>
    by_cases h : p (f x) = true
    · rw [List.filter_cons_of_pos (by simpa using h), List.map_cons,
        List.map_cons, List.filter_cons_of_pos h, ih]
    · rw [List.filter_cons_of_neg (by simpa using h), List.map_cons,
        List.filter_cons_of_neg h, ih]

theorem range_filter_ne_zero (n : Nat) :
    (List.range n).filter (fun a => decide (¬ a = 0)) =
      (List.range (n - 1)).map Nat.succ := by
  rcases n with _ | m
  · rfl
  · rw [List.range_succ_eq_map, List.filter_cons_of_neg (by decide),
      Nat.succ_sub_one]
    exact List.filter_eq_self.mpr (fun a ha => by
      obtain ⟨b, _, hb⟩ := List.mem_map.mp ha
      simp [← hb])

/-- C10: for every dependency graph whose node addresses are exactly
`0 .. n-1` (they are the keys of the `nodes` dict) and in which the root —
and only the root — has `word = None` at address `0`, `get_sentence graph
false` returns the `(word, ctag)` pairs of exactly the non-root nodes in
ascending address order (the node at address `a` lands at position `a - 1`,
and there are `n - 1` of them), while `get_sentence graph true` additionally
includes the root's `(None, tag)` pair at position `0` (every node lands at
the position equal to its own address); consequently feeding the
`include_root = false` output to the `PartialParse` constructor gives every
word a state index equal to its graph address, with the root pair
`(None, TOP)` at index `0`. -/
theorem c10_get_sentence (graph : DepGraph)
    (hperm : List.Perm (graph.nodes.map DepNode.address)
      (List.range graph.nodes.length))
    (hroot : ∀ nd ∈ graph.nodes, nd.word = none ↔ nd.address = 0) :
    ((get_sentence graph true).length = graph.nodes.length ∧
      ∀ nd ∈ graph.nodes,
        (get_sentence graph true).get? nd.address = some (nd.word, nd.ctag)) ∧
    ((get_sentence graph false).length = graph.nodes.length - 1 ∧
      ∀ nd ∈ graph.nodes, nd.word.isSome = true →
        (get_sentence graph false).get? (nd.address - 1) =
          some (nd.word, nd.ctag)) ∧
    (∀ nd ∈ graph.nodes,
      (initPP (get_sentence graph false)).sentence.get? nd.address =
        some (if nd.address = 0 then (none, root_tag) else (nd.word, nd.ctag))) := by
  haveI : IsTotal (Nat × Option String × String) (fun a b => a.1 ≤ b.1) :=
    ⟨fun a b => le_total a.1 b.1⟩
  haveI : IsTrans (Nat × Option String × String) (fun a b => a.1 ≤ b.1) :=
    ⟨fun a b c h1 h2 => le_trans h1 h2⟩
  have hgs_true : get_sentence graph true =
      (sortByAddr (graph.nodes.map (fun nd => (nd.address, nd.word, nd.ctag)))).map
        (fun t => t.2) := by
    show (sortByAddr ((graph.nodes.filter
        (fun nd => true || nd.word.isSome)).map
        (fun nd => (nd.address, nd.word, nd.ctag)))).map (fun t => t.2) = _
    rw [List.filter_congr (fun (nd : DepNode) _ => Bool.true_or nd.word.isSome),
      List.filter_true]
  have hgs_false : get_sentence graph false =
      (sortByAddr ((graph.nodes.filter (fun nd => nd.word.isSome)).map
        (fun nd => (nd.address, nd.word, nd.ctag)))).map (fun t => t.2) := by
    show (sortByAddr ((graph.nodes.filter
        (fun nd => false || nd.word.isSome)).map
        (fun nd => (nd.address, nd.word, nd.ctag)))).map (fun t => t.2) = _
    rw [List.filter_congr (fun (nd : DepNode) _ => Bool.false_or nd.word.isSome)]
  have hLperm : List.Perm
      (sortByAddr (graph.nodes.map (fun nd => (nd.address, nd.word, nd.ctag))))
      (graph.nodes.map (fun nd => (nd.address, nd.word, nd.ctag))) :=
    List.perm_insertionSort _ _
  have hLsort : List.Sorted (fun a b => a.1 ≤ b.1)
      (sortByAddr (graph.nodes.map (fun nd => (nd.address, nd.word, nd.ctag)))) :=
    List.sorted_insertionSort _ _
  have hfst : (sortByAddr (graph.nodes.map
      (fun nd => (nd.address, nd.word, nd.ctag)))).map Prod.fst =
      List.range graph.nodes.length :=
    List.eq_of_perm_of_sorted
      ((hLperm.map Prod.fst).trans (by
        rw [List.map_map]
        have h1 : graph.nodes.map
            (Prod.fst ∘ fun nd => (nd.address, nd.word, nd.ctag)) =
            graph.nodes.map DepNode.address := rfl
        rw [h1]
        exact hperm))
      (List.Pairwise.map Prod.fst (fun a b h => h) hLsort)
      ((List.pairwise_lt_range _).imp (fun h => le_of_lt h))
  have hpred : ∀ nd ∈ graph.nodes,
      (nd.word.isSome) = decide (¬ nd.address = 0) := by
    intro nd hnd0
    have h := hroot nd hnd0
    by_cases h0 : nd.address = 0
    · have hw : nd.word = none := h.mpr h0
      rw [hw, h0]
      rfl
    · have hw : nd.word ≠ none := fun hc => h0 (h.mp hc)
      rcases hwd : nd.word with _ | w
      · exact absurd hwd hw
      · simp [h0]
  have hL'perm : List.Perm
      (sortByAddr ((graph.nodes.filter (fun nd => nd.word.isSome)).map
        (fun nd => (nd.address, nd.word, nd.ctag))))
      ((graph.nodes.filter (fun nd => nd.word.isSome)).map
        (fun nd => (nd.address, nd.word, nd.ctag))) :=
    List.perm_insertionSort _ _
  have hL'sort : List.Sorted (fun a b => a.1 ≤ b.1)
      (sortByAddr ((graph.nodes.filter (fun nd => nd.word.isSome)).map
        (fun nd => (nd.address, nd.word, nd.ctag)))) :=
    List.sorted_insertionSort _ _
  have hfst' : (sortByAddr ((graph.nodes.filter (fun nd => nd.word.isSome)).map
      (fun nd => (nd.address, nd.word, nd.ctag)))).map Prod.fst =
      (List.range (graph.nodes.length - 1)).map Nat.succ :=
    List.eq_of_perm_of_sorted
      ((hL'perm.map Prod.fst).trans (by
        rw [List.map_map]
        have h1 : (graph.nodes.filter (fun nd => nd.word.isSome)).map
            (Prod.fst ∘ fun nd => (nd.address, nd.word, nd.ctag)) =
            (graph.nodes.filter (fun nd => nd.word.isSome)).map
              DepNode.address := rfl
        rw [h1, List.filter_congr hpred]
        have h3 : (graph.nodes.filter
            (fun nd => decide (¬ nd.address = 0))).map DepNode.address =
            (graph.nodes.map DepNode.address).filter
              (fun a => decide (¬ a = 0)) :=
          map_filter_comm DepNode.address (fun a => decide (¬ a = 0)) graph.nodes
        rw [h3, ← range_filter_ne_zero]
        exact hperm.filter _))
      (List.Pairwise.map Prod.fst (fun a b h => h) hL'sort)
      (List.Pairwise.map Nat.succ
        (fun a b h => Nat.succ_le_succ (le_of_lt h)) (List.pairwise_lt_range _))
  have hfalse_get : ∀ nd ∈ graph.nodes, nd.word.isSome = true →
      (get_sentence graph false).get? (nd.address - 1) =
        some (nd.word, nd.ctag) := by
    intro nd hnd0 hw
    have ht : (nd.address, nd.word, nd.ctag) ∈
        sortByAddr ((graph.nodes.filter (fun nd => nd.word.isSome)).map
          (fun nd => (nd.address, nd.word, nd.ctag))) :=
      hL'perm.mem_iff.mpr
        (List.mem_map.mpr ⟨nd, List.mem_filter.mpr ⟨hnd0, hw⟩, rfl⟩)
    obtain ⟨j, hj, hje⟩ := List.mem_iff_getElem.mp ht
    have hfj : ((List.range (graph.nodes.length - 1)).map Nat.succ)[j]? =
        some nd.address := by
      rw [← hfst', List.getElem?_map, List.getElem?_eq_getElem hj, hje]
      rfl
    rw [List.getElem?_map] at hfj
    rcases h6 : (List.range (graph.nodes.length - 1))[j]? with _ | v
    · rw [h6] at hfj
      simp at hfj
    · rw [h6] at hfj
      obtain ⟨hlt, hv⟩ := List.getElem?_eq_some.mp h6
      rw [List.getElem_range] at hv
      have h7 : some (Nat.succ v) = some nd.address := hfj
      injection h7 with h8
      rw [hgs_false, List.get?_eq_getElem?, List.getElem?_map]
      have h9 : nd.address - 1 = j := by omega
      rw [h9, List.getElem?_eq_getElem hj, hje]
      rfl
  refine ⟨⟨?_, ?_⟩, ⟨?_, ?_⟩, ?_⟩
  · rw [hgs_true, List.length_map]
    have h1 := congrArg List.length hfst
    rw [List.length_map, List.length_range] at h1
    exact h1
  · intro nd hnd0
    have ht : (nd.address, nd.word, nd.ctag) ∈
        sortByAddr (graph.nodes.map (fun nd => (nd.address, nd.word, nd.ctag))) :=
      hLperm.mem_iff.mpr (List.mem_map.mpr ⟨nd, hnd0, rfl⟩)
    obtain ⟨j, hj, hje⟩ := List.mem_iff_getElem.mp ht
    have hfj : (List.range graph.nodes.length)[j]? = some nd.address := by
      rw [← hfst, List.getElem?_map, List.getElem?_eq_getElem hj, hje]
      rfl
    have hjlt : j < graph.nodes.length := by
      obtain ⟨h5, _⟩ := List.getElem?_eq_some.mp hfj
      rw [List.length_range] at h5
      exact h5
    have hja : j = nd.address := by
      rw [List.getElem?_range hjlt] at hfj
      injection hfj with h6
    rw [hgs_true, List.get?_eq_getElem?, List.getElem?_map, ← hja,
      List.getElem?_eq_getElem hj, hje]
    rfl
  · rw [hgs_false, List.length_map]
    have h1 := congrArg List.length hfst'
    rw [List.length_map, List.length_map, List.length_range] at h1
    exact h1
  · exact hfalse_get
  · intro nd hnd0
    by_cases h0 : nd.address = 0
    · rw [h0]
      rfl
    · have hw : nd.word.isSome = true := by
        have h := hroot nd hnd0
        rcases hwd : nd.word with _ | w
        · exact absurd (h.mp hwd) h0
        · rfl
      have h2 := hfalse_get nd hnd0 hw
      rcases ha : nd.address with _ | m
      · exact absurd ha h0
      · rw [ha] at h2
        rw [if_neg (Nat.succ_ne_zero m)]
        have h3 : (initPP (get_sentence graph false)).sentence.get?
            (Nat.succ m) = (get_sentence graph false).get? m := rfl
        rw [h3]
        rw [Nat.succ_sub_one] at h2
        exact h2

theorem c10_get_sentence_witness :
    (((get_sentence gEx true).length = gEx.nodes.length ∧
        ∀ nd ∈ gEx.nodes,
          (get_sentence gEx true).get? nd.address = some (nd.word, nd.ctag)) ∧
      ((get_sentence gEx false).length = gEx.nodes.length - 1 ∧
        ∀ nd ∈ gEx.nodes, nd.word.isSome = true →
          (get_sentence gEx false).get? (nd.address - 1) =
            some (nd.word, nd.ctag)) ∧
      (∀ nd ∈ gEx.nodes,
        (initPP (get_sentence gEx false)).sentence.get? nd.address =
          some (if nd.address = 0 then (none, root_tag)
            else (nd.word, nd.ctag)))) ∧
    get_sentence gEx false = [(some "book", "VB"), (some "flight", "NN")] ∧
    get_sentence gEx true =
      [(none, "TOP"), (some "book", "VB"), (some "flight", "NN")] :=
  ⟨c10_get_sentence gEx (by decide) (by decide), by rfl, by rfl⟩
